import Mathlib

/-
Verification of the struct-validator library (src/src/lib.rs).

The development shallowly embeds:
  * `StructValidator` (a HashMap from field identifier to message, modelled as an
    association list with unique keys) and its operations `new`, `insert`,
    `contains`, `is_empty`, `to_json_string`, `from_json_string`, the
    `Extend<(String, String)>` instance (`extendPairs`) and the
    `FromIterator<&Result<T, StructValidator>>` instance (`from_iter_results`);
  * the `" at line"` truncation (Rust `str::rfind`, i.e. the LAST occurrence),
    performed at the character level (Rust works with byte offsets, but a match
    of the ASCII needle always starts at a character boundary, so the truncated
    string is the same);
  * the JSON serialization of the derived serde `Serialize`/`Deserialize`
    instances.  serde_json itself is an external crate, so its compact
    serializer (`escChar`/`serializeChars`) and its parser (`strGo`,
    `parseMapBody`, `outerGo`, `parseTop`) are modelled here: the derived
    instances serialize the struct as an object with the single key "errors"
    whose value is the map.  The parser model accepts JSON whitespace, the
    standard string escapes, ignores unknown struct keys and rejects trailing
    input, mirroring serde_json; lone surrogate escapes are rejected (serde_json
    combines surrogate pairs, which never arise in this development);
  * the `deserialize_struct!` macro's `visit_map` loop (`stepField`, `sweepSV`,
    `unwrapSlots`, `decodeStruct`), generic over a schema: a list of field
    identifiers with a per-field decode capability.  The input is the already
    tokenised key/value sequence handed over by the format deserializer;
    values are read as `Option<T>` (`$field_name = v` assigns the `Option`
    produced by `map.next_value()`), so a JSON null leaves the slot empty.
-/

/-- The literal needle `" at line"` used by the truncation heuristic. -/
def needleChars : List Char := " at line".data

/-- Does the needle occur in `l` starting at position `i`? -/
def occursAtB (l : List Char) (i : Nat) : Bool :=
  needleChars.isPrefixOf (l.drop i)

/-- Search positions `i, i-1, ..., 0` for an occurrence of the needle:
the model of `str::rfind` (which returns the start of the LAST match). -/
def rfindFrom (l : List Char) : Nat → Option Nat
  | 0 => if occursAtB l 0 then some 0 else none
  | i + 1 => if occursAtB l (i + 1) then some (i + 1) else rfindFrom l i

/-- `rfind(" at line")` over the whole string. -/
def rfindNeedle (l : List Char) : Option Nat := rfindFrom l l.length

/-- `&s[..s.rfind(" at line").unwrap_or(s.len())]`. -/
def truncChars (l : List Char) : List Char :=
  match rfindNeedle l with
  | some i => l.take i
  | none => l

/-- String-level truncation at the last `" at line"` occurrence. -/
def truncStr (s : String) : String := String.mk (truncChars s.data)

/-- `StructValidator`: `errors` is a `HashMap<String, String>`, modelled as an
association list (key set unique in every value the library constructs). -/
structure StructValidator where
  errors : List (String × String)
  deriving DecidableEq

/-- `StructValidator::new`. -/
def StructValidator.new : StructValidator := ⟨[]⟩

/-- `HashMap::insert`: replace the value of an existing key, else append. -/
def mapInsert : List (String × String) → String → String → List (String × String)
  | [], k, v => [(k, v)]
  | p :: rest, k, v => if p.1 = k then (k, v) :: rest else p :: mapInsert rest k v

/-- First-match association-list lookup (the map view of `errors`). -/
def lookupMsg : List (String × String) → String → Option String
  | [], _ => none
  | p :: rest, k => if p.1 = k then some p.2 else lookupMsg rest k

/-- `HashMap::get` view of the collector. -/
def StructValidator.get (sv : StructValidator) (k : String) : Option String :=
  lookupMsg sv.errors k

/-- `StructValidator::contains` (`HashMap::contains_key`). -/
def StructValidator.contains (sv : StructValidator) (k : String) : Bool :=
  (sv.get k).isSome

/-- `StructValidator::is_empty`. -/
def StructValidator.is_empty (sv : StructValidator) : Bool :=
  sv.errors.isEmpty

/-- `StructValidator::insert`: truncate the message at the last `" at line"`
occurrence, then store it under `key` (overwriting any prior message). -/
def StructValidator.insert (sv : StructValidator) (k v : String) : StructValidator :=
  ⟨mapInsert sv.errors k (truncStr v)⟩

/-- `Extend<(String, String)>`: `self.errors.extend(iter)` — plain `HashMap`
inserts, no truncation. -/
def StructValidator.extendPairs (sv : StructValidator) (ps : List (String × String)) :
    StructValidator :=
  ⟨ps.foldl (fun m p => mapInsert m p.1 p.2) sv.errors⟩

/-- `FromIterator<&Result<T, StructValidator>>`: fold the sequence into one
collector; `Ok` items contribute nothing, `Err` collectors are merged in. -/
def StructValidator.from_iter_results {β : Type} (l : List (Except StructValidator β)) :
    StructValidator :=
  l.foldl
    (fun acc r =>
      match r with
      | .ok _ => acc
      | .error e => acc.extendPairs e.errors)
    StructValidator.new

/-- Lowercase hex digit (as emitted by serde_json's `\u00XX` escapes). -/
def hexDigitChar (n : Nat) : Char := Nat.digitChar n

/-- serde_json's compact string escaping: `"`, `\`, the short control escapes
and `\u00XX` for the remaining control characters; everything else verbatim. -/
def escChar (c : Char) : List Char :=
  if c = '"' then ['\\', '"']
  else if c = '\\' then ['\\', '\\']
  else if c = '\x08' then ['\\', 'b']
  else if c = '\t' then ['\\', 't']
  else if c = '\n' then ['\\', 'n']
  else if c = '\x0C' then ['\\', 'f']
  else if c = '\r' then ['\\', 'r']
  else if c.toNat < 32 then
    ['\\', 'u', '0', '0', hexDigitChar (c.toNat / 16), hexDigitChar (c.toNat % 16)]
  else [c]

/-- Escape a whole character sequence. -/
def escList : List Char → List Char
  | [] => []
  | c :: rest => escChar c ++ escList rest

/-- One serialized `"key":"value"` member. -/
def entryChars (p : String × String) : List Char :=
  '"' :: escList p.1.data ++ '"' :: ':' :: '"' :: escList p.2.data ++ ['"']

/-- Comma-separated members of the serialized map. -/
def entriesChars : List (String × String) → List Char
  | [] => []
  | [p] => entryChars p
  | p :: rest => entryChars p ++ ',' :: entriesChars rest

/-- The serialized inner map object. -/
def innerObjChars (ps : List (String × String)) : List Char :=
  '{' :: entriesChars ps ++ ['}']

/-- The derived `Serialize` output: an object with the single field "errors". -/
def serializeChars (sv : StructValidator) : List Char :=
  '{' :: '"' :: "errors".data ++ '"' :: ':' :: innerObjChars sv.errors ++ ['}']

/-- `StructValidator::to_json_string` (`serde_json::to_string` never fails on a
string-to-string map, so the defensive fallback branch is dead). -/
def StructValidator.to_json_string (sv : StructValidator) : String :=
  String.mk (serializeChars sv)

/-- JSON whitespace. -/
def isWsChar (c : Char) : Bool :=
  c == ' ' || c == '\t' || c == '\n' || c == '\r'

/-- Drop leading JSON whitespace. -/
def skipWs : List Char → List Char
  | [] => []
  | c :: r => if isWsChar c then skipWs r else c :: r

/-- Hex digit value. -/
def hexVal? (c : Char) : Option Nat :=
  if '0' ≤ c ∧ c ≤ '9' then some (c.toNat - 48)
  else if 'a' ≤ c ∧ c ≤ 'f' then some (c.toNat - 87)
  else if 'A' ≤ c ∧ c ≤ 'F' then some (c.toNat - 55)
  else none

/-- String-literal body parser (after the opening quote): the serde_json string
grammar with the standard escapes; raw control characters are rejected. -/
def strGo (acc : List Char) : List Char → Except String (String × List Char)
  | [] => .error "unexpected end of string"
  | c :: r =>
    if c = '"' then .ok (String.mk acc.reverse, r)
    else if c = '\\' then
      match r with
      | [] => .error "unexpected end of string"
      | e :: r' =>
        if e = '"' then strGo ('"' :: acc) r'
        else if e = '\\' then strGo ('\\' :: acc) r'
        else if e = '/' then strGo ('/' :: acc) r'
        else if e = 'b' then strGo ('\x08' :: acc) r'
        else if e = 'f' then strGo ('\x0C' :: acc) r'
        else if e = 'n' then strGo ('\n' :: acc) r'
        else if e = 'r' then strGo ('\r' :: acc) r'
        else if e = 't' then strGo ('\t' :: acc) r'
        else if e = 'u' then
          match r' with
          | h1 :: h2 :: h3 :: h4 :: r'' =>
            match hexVal? h1, hexVal? h2, hexVal? h3, hexVal? h4 with
            | some a, some b, some c2, some d =>
              let n := ((a * 16 + b) * 16 + c2) * 16 + d
              if n < 55296 ∨ 57343 < n then strGo (Char.ofNat n :: acc) r''
              else .error "unsupported unicode escape"
            | _, _, _, _ => .error "invalid hex escape"
          | _ => .error "unexpected end of string"
        else .error "invalid escape"
    else if c.toNat < 32 then .error "control character in string"
    else strGo (c :: acc) r

/-- Parse a JSON string literal. -/
def parseStrLit : List Char → Except String (String × List Char)
  | '"' :: r => strGo [] r
  | _ => .error "expected string"

/-- Parse the members of a string-to-string object (after at least one member
is known to follow); duplicate keys overwrite, like the `HashMap` visitor. -/
def parseMapBody (fuel : Nat) (acc : List (String × String)) (l : List Char) :
    Except String (List (String × String) × List Char) :=
  match fuel with
  | 0 => .error "recursion limit exceeded"
  | fuel + 1 =>
    match parseStrLit l with
    | .error e => .error e
    | .ok (k, r1) =>
      match skipWs r1 with
      | ':' :: r2 =>
        match parseStrLit (skipWs r2) with
        | .error e => .error e
        | .ok (v, r3) =>
          match skipWs r3 with
          | ',' :: r4 => parseMapBody fuel (mapInsert acc k v) (skipWs r4)
          | '}' :: r4 => .ok (mapInsert acc k v, r4)
          | _ => .error "expected comma or brace"
      | _ => .error "expected colon"

/-- Parse a string-to-string JSON object (the `HashMap<String, String>`). -/
def parseStrMap (fuel : Nat) (l : List Char) :
    Except String (List (String × String) × List Char) :=
  match skipWs l with
  | '{' :: r =>
    match skipWs r with
    | '}' :: r2 => .ok ([], r2)
    | _ => parseMapBody fuel [] (skipWs r)
  | _ => .error "expected map"

/-- Match an exact literal tail (for `true` / `false` / `null`). -/
def skipLiteralChars : List Char → List Char → Option (List Char)
  | [], l => some l
  | c :: cs, x :: l => if x = c then skipLiteralChars cs l else none
  | _ :: _, [] => none

/-- Characters a JSON number may continue with (approximate model; only used
to discard unknown-field values, which this repository's callers never hit). -/
def isNumChar (c : Char) : Bool :=
  c.isDigit || c == '-' || c == '+' || c == '.' || c == 'e' || c == 'E'

mutual

/-- Skip one JSON value (`IgnoredAny` for unknown struct fields). -/
def skipValue (fuel : Nat) (l : List Char) : Except String (List Char) :=
  match fuel with
  | 0 => .error "recursion limit exceeded"
  | fuel + 1 =>
    match skipWs l with
    | [] => .error "unexpected end of input"
    | c :: r =>
      if c = '"' then
        match strGo [] r with
        | .ok (_, rest) => .ok rest
        | .error e => .error e
      else if c = '{' then skipMembers fuel (skipWs r)
      else if c = '[' then skipElems fuel (skipWs r)
      else if c = 't' then
        match skipLiteralChars ['r', 'u', 'e'] r with
        | some rest => .ok rest
        | none => .error "expected ident"
      else if c = 'f' then
        match skipLiteralChars ['a', 'l', 's', 'e'] r with
        | some rest => .ok rest
        | none => .error "expected ident"
      else if c = 'n' then
        match skipLiteralChars ['u', 'l', 'l'] r with
        | some rest => .ok rest
        | none => .error "expected ident"
      else if c = '-' || c.isDigit then .ok ((c :: r).dropWhile isNumChar)
      else .error "expected value"

/-- Skip the members of an object being discarded. -/
def skipMembers (fuel : Nat) (l : List Char) : Except String (List Char) :=
  match fuel with
  | 0 => .error "recursion limit exceeded"
  | fuel + 1 =>
    match l with
    | '}' :: r => .ok r
    | _ =>
      match parseStrLit l with
      | .error e => .error e
      | .ok (_, r1) =>
        match skipWs r1 with
        | ':' :: r2 =>
          match skipValue fuel (skipWs r2) with
          | .error e => .error e
          | .ok r3 =>
            match skipWs r3 with
            | ',' :: r4 => skipMembers fuel (skipWs r4)
            | '}' :: r4 => .ok r4
            | _ => .error "expected comma or brace"
        | _ => .error "expected colon"

/-- Skip the elements of an array being discarded. -/
def skipElems (fuel : Nat) (l : List Char) : Except String (List Char) :=
  match fuel with
  | 0 => .error "recursion limit exceeded"
  | fuel + 1 =>
    match l with
    | ']' :: r => .ok r
    | _ =>
      match skipValue fuel l with
      | .error e => .error e
      | .ok r1 =>
        match skipWs r1 with
        | ',' :: r2 => skipElems fuel (skipWs r2)
        | ']' :: r2 => .ok r2
        | _ => .error "expected comma or bracket"

end

/-- Field loop of the derived `Deserialize` for the struct: the single known
field is "errors"; unknown fields are ignored, a duplicate "errors" and a
missing "errors" are errors — the default serde derive behaviour. -/
def outerGo (fuel : Nat) (found : Option (List (String × String))) (l : List Char) :
    Except String (List (String × String) × List Char) :=
  match fuel with
  | 0 => .error "recursion limit exceeded"
  | fuel + 1 =>
    match l with
    | '}' :: r =>
      match found with
      | some m => .ok (m, r)
      | none => .error "missing field"
    | _ =>
      match parseStrLit l with
      | .error e => .error e
      | .ok (k, r1) =>
        match skipWs r1 with
        | ':' :: r2 =>
          if k = "errors" then
            match found with
            | some _ => .error "duplicate field"
            | none =>
              match parseStrMap fuel (skipWs r2) with
              | .error e => .error e
              | .ok (m, r3) =>
                match skipWs r3 with
                | ',' :: r4 => outerGo fuel (some m) (skipWs r4)
                | '}' :: r4 => .ok (m, r4)
                | _ => .error "expected comma or brace"
          else
            match skipValue fuel (skipWs r2) with
            | .error e => .error e
            | .ok r3 =>
              match skipWs r3 with
              | ',' :: r4 => outerGo fuel found (skipWs r4)
              | '}' :: r4 =>
                match found with
                | some m => .ok (m, r4)
                | none => .error "missing field"
              | _ => .error "expected comma or brace"
        | _ => .error "expected colon"

/-- `serde_json::from_str::<StructValidator>`: parse the object, then reject
trailing non-whitespace input. -/
def parseTop (l : List Char) : Except String StructValidator :=
  match skipWs l with
  | '{' :: r =>
    match outerGo (l.length + 1) none (skipWs r) with
    | .error e => .error e
    | .ok (m, rest) =>
      if skipWs rest = [] then .ok ⟨m⟩ else .error "trailing characters"
  | _ => .error "expected object"

/-- `StructValidator::from_json_string`: truncate the text at the last
`" at line"` occurrence, then parse it. -/
def StructValidator.from_json_string (s : String) : Except String StructValidator :=
  parseTop (truncChars s.data)

/-- The raw values handed to `map.next_value()` by the format deserializer. -/
inductive JVal where
  | null
  | bool (b : Bool)
  | num (n : Int)
  | str (s : String)
  deriving DecidableEq

/-- `map.next_value::<Option<T>>()`: a JSON null reads as `None`; any other
value is decoded by the field's decode capability and wrapped in `Some`. -/
def decodeOptVal {α : Type} (d : JVal → Except String α) (v : JVal) :
    Except String (Option α) :=
  match v with
  | .null => .ok none
  | _ => (d v).map some

/-- One iteration of the `visit_map` key match: the first schema field whose
identifier equals the key receives the value (success overwrites the slot,
failure is recorded in the collector under the field identifier); an unknown
key discards the value and changes nothing. -/
def stepField {α : Type} :
    List (String × (JVal → Except String α)) → List (Option α) → StructValidator →
      String → JVal → List (Option α) × StructValidator
  | [], slots, sv, _, _ => (slots, sv)
  | _ :: _, [], sv, _, _ => ([], sv)
  | p :: sch, s :: slots, sv, k, v =>
    if p.1 = k then
      match decodeOptVal p.2 v with
      | .ok o => (o :: slots, sv)
      | .error e => (s :: slots, sv.insert p.1 e)
    else
      let r := stepField sch slots sv k v
      (s :: r.1, r.2)

/-- The `while let Some(key) = map.next_key()` loop, from a given state. -/
def loopFrom {α : Type} (sch : List (String × (JVal → Except String α)))
    (st : List (Option α) × StructValidator) (input : List (String × JVal)) :
    List (Option α) × StructValidator :=
  input.foldl (fun st kv => stepField sch st.1 st.2 kv.1 kv.2) st

/-- `let mut field = None;` for every declared field. -/
def initSlots {α : Type} (sch : List (String × (JVal → Except String α))) :
    List (Option α) :=
  sch.map (fun _ => none)

/-- The whole reading loop of one decode attempt. -/
def loopRun {α : Type} (sch : List (String × (JVal → Except String α)))
    (input : List (String × JVal)) : List (Option α) × StructValidator :=
  loopFrom sch (initSlots sch, StructValidator.new) input

/-- The missing-field sweep: for every declared field whose slot is still
empty and which the collector does not already mention, insert the standard
"field is missing" message. -/
def sweepSV {α : Type} :
    List (String × (JVal → Except String α)) → List (Option α) → StructValidator →
      StructValidator
  | [], _, sv => sv
  | _ :: _, [], sv => sv
  | p :: sch, s :: slots, sv =>
    let sv' := if s.isNone && !(sv.contains p.1) then sv.insert p.1 "field is missing" else sv
    sweepSV sch slots sv'

/-- The defensive `ok_or_else(missing_field)` unwrapping of the slots. -/
def unwrapSlots {α : Type} :
    List (String × (JVal → Except String α)) → List (Option α) → Except String (List α)
  | [], _ => .ok []
  | _ :: _, [] => .ok []
  | p :: sch, s :: slots =>
    match s with
    | some v => (unwrapSlots sch slots).map (fun vs => v :: vs)
    | none => .error ("missing field `" ++ p.1 ++ "`")

/-- `visit_map` of `deserialize_struct!`: run the loop, sweep for missing
fields, fail with the serialized collector if it is non-empty (one
`Error::custom` event), otherwise assemble the record from the slots. -/
def decodeStruct {α : Type} (sch : List (String × (JVal → Except String α)))
    (input : List (String × JVal)) : Except String (List α) :=
  let st := loopRun sch input
  let sv := sweepSV sch st.1 st.2
  if sv.is_empty then unwrapSlots sch st.1
  else .error sv.to_json_string

/-- The collector as it stands right after the reading loop. -/
def afterLoopSV {α : Type} (sch : List (String × (JVal → Except String α)))
    (input : List (String × JVal)) : StructValidator :=
  (loopRun sch input).2

/-- The collector after the missing-field sweep (the failure payload). -/
def finalSV {α : Type} (sch : List (String × (JVal → Except String α)))
    (input : List (String × JVal)) : StructValidator :=
  sweepSV sch (loopRun sch input).1 (loopRun sch input).2

/-- The slot a field identifier resolves to (first schema match). -/
def slotOf {α : Type} :
    List (String × (JVal → Except String α)) → List (Option α) → String → Option α
  | [], _, _ => none
  | _ :: _, [], _ => none
  | p :: sch, s :: slots, f => if p.1 = f then s else slotOf sch slots f

/-- The decode-failure messages produced by the entries for field `f`, in
input order. -/
def fieldFails {α : Type} (d : JVal → Except String α) (input : List (String × JVal))
    (f : String) : List String :=
  input.filterMap (fun kv =>
    if kv.1 = f then
      match decodeOptVal d kv.2 with
      | .error e => some e
      | .ok _ => none
    else none)

/-- The payloads of the successful reads for field `f`, in input order (each
is an `Option` because values are read as `Option<T>`: null reads as `none`). -/
def fieldOks {α : Type} (d : JVal → Except String α) (input : List (String × JVal))
    (f : String) : List (Option α) :=
  input.filterMap (fun kv =>
    if kv.1 = f then
      match decodeOptVal d kv.2 with
      | .ok o => some o
      | .error _ => none
    else none)

/-- The value the slot of field `f` holds after the loop: the payload of the
last successful read for `f` (`none` if no read succeeded). -/
def fieldLastOk {α : Type} (d : JVal → Except String α) (input : List (String × JVal))
    (f : String) : Option α :=
  (fieldOks d input f).getLast?.getD none

/-- The decode capability the key match resolves a field identifier to (the
first schema entry with that identifier, mirroring the generated key `enum`). -/
def findDec {α : Type} :
    List (String × (JVal → Except String α)) → String → Option (JVal → Except String α)
  | [], _ => none
  | p :: sch, k => if p.1 = k then some p.2 else findDec sch k

/-- The declared field identifiers of a schema. -/
def namesOf {α : Type} (sch : List (String × (JVal → Except String α))) : List String :=
  sch.map Prod.fst

/-- The input with every unknown key removed. -/
def filterKnown {α : Type} (sch : List (String × (JVal → Except String α)))
    (input : List (String × JVal)) : List (String × JVal) :=
  input.filter (fun kv => decide (kv.1 ∈ namesOf sch))

/-- A sample decode capability used by concrete witnesses: accepts numbers,
fails on anything else with the typical numeric parse diagnostic. -/
def decNum : JVal → Except String Int := fun v =>
  match v with
  | .num n => .ok n
  | _ => .error "invalid digit found in string"

/-- Success test for a `Result`. -/
def isOkE {ε α : Type} : Except ε α → Bool
  | .ok _ => true
  | .error _ => false

/-- All error-collector entries of a result sequence, concatenated in order. -/
def errPairs {β : Type} (l : List (Except StructValidator β)) : List (String × String) :=
  (l.filterMap (fun r =>
    match r with
    | .error e => some e.errors
    | .ok _ => none)).flatten

/-- The value the last pair with key `k` carries (the "later entries overwrite
earlier ones" reading of a pair sequence). -/
def lastValFor (ps : List (String × String)) (k : String) : Option String :=
  (ps.filter (fun p => decide (p.1 = k))).getLast?.map Prod.snd

/-- Left-biased choice on options (used to state lookup characterizations). -/
def orO {α : Type} (a b : Option α) : Option α :=
  match a with
  | some v => some v
  | none => b

/-- `" at line"` occurs somewhere in `l`. -/
def OccursN (l : List Char) : Prop := ∃ a b, l = a ++ needleChars ++ b

/-- Decidable occurrence test used in theorem hypotheses. -/
def hasNeedle (s : String) : Bool := (rfindNeedle s.data).isSome

instance {ε α : Type} [DecidableEq ε] [DecidableEq α] : DecidableEq (Except ε α) :=
  fun x y =>
    match x, y with
    | .ok a, .ok b =>
      if h : a = b then isTrue (by rw [h]) else isFalse (fun hh => by cases hh; exact h rfl)
    | .error a, .error b =>
      if h : a = b then isTrue (by rw [h]) else isFalse (fun hh => by cases hh; exact h rfl)
    | .ok _, .error _ => isFalse (fun hh => by cases hh)
    | .error _, .ok _ => isFalse (fun hh => by cases hh)

/-! ### Basic collector lemmas -/

theorem lookupMsg_mapInsert_self (m : List (String × String)) (k v : String) :
    lookupMsg (mapInsert m k v) k = some v := by
  induction m with
  | nil => simp [mapInsert, lookupMsg]
  | cons p rest ih =>
    by_cases h : p.1 = k
    · simp [mapInsert, h, lookupMsg]
    · simp [mapInsert, h, lookupMsg, ih]

theorem lookupMsg_mapInsert_ne (m : List (String × String)) (k v k' : String)
    (h : k' ≠ k) : lookupMsg (mapInsert m k v) k' = lookupMsg m k' := by
  induction m with
  | nil =>
    simp only [mapInsert, lookupMsg]
    rw [if_neg (fun hh => h hh.symm)]
  | cons p rest ih =>
    by_cases hp : p.1 = k
    · have h1 : mapInsert (p :: rest) k v = (k, v) :: rest := by simp [mapInsert, hp]
      rw [h1]
      simp only [lookupMsg]
      rw [if_neg (fun hh => h hh.symm), hp, if_neg (fun hh => h hh.symm)]
    · have h1 : mapInsert (p :: rest) k v = p :: mapInsert rest k v := by
        simp [mapInsert, hp]
      rw [h1]
      simp only [lookupMsg, ih]

theorem get_insert_self (sv : StructValidator) (k v : String) :
    (sv.insert k v).get k = some (truncStr v) :=
  lookupMsg_mapInsert_self sv.errors k (truncStr v)

theorem get_insert_ne (sv : StructValidator) (k v k' : String) (h : k' ≠ k) :
    (sv.insert k v).get k' = sv.get k' :=
  lookupMsg_mapInsert_ne sv.errors k (truncStr v) k' h

theorem contains_iff_get (sv : StructValidator) (k : String) :
    sv.contains k = true ↔ ∃ v, sv.get k = some v := by
  simp [StructValidator.contains, Option.isSome_iff_exists]

theorem contains_false_iff_get (sv : StructValidator) (k : String) :
    sv.contains k = false ↔ sv.get k = none := by
  cases h : sv.get k <;> simp [StructValidator.contains, h]

theorem mapInsert_ne_nil (m : List (String × String)) (k v : String) :
    mapInsert m k v ≠ [] := by
  cases m with
  | nil => simp [mapInsert]
  | cons p rest =>
    by_cases h : p.1 = k <;> simp [mapInsert, h]

theorem is_empty_insert (sv : StructValidator) (k v : String) :
    (sv.insert k v).is_empty = false := by
  have := mapInsert_ne_nil sv.errors k (truncStr v)
  simp [StructValidator.insert, StructValidator.is_empty, List.isEmpty_iff]
  exact this

theorem get_of_is_empty (sv : StructValidator) (k : String)
    (h : sv.is_empty = true) : sv.get k = none := by
  have : sv.errors = [] := by
    simpa [StructValidator.is_empty, List.isEmpty_iff] using h
  simp [StructValidator.get, this, lookupMsg]

theorem is_empty_false_of_get (sv : StructValidator) (k v : String)
    (h : sv.get k = some v) : sv.is_empty = false := by
  cases he : sv.is_empty with
  | false => rfl
  | true => rw [get_of_is_empty sv k he] at h; cases h

/-! ### Truncation characterization -/

theorem isPrefixOf_iff_exists (n l : List Char) :
    n.isPrefixOf l = true ↔ ∃ t, l = n ++ t := by
  induction n generalizing l with
  | nil => simp [List.isPrefixOf]
  | cons c n' ih =>
    cases l with
    | nil => simp [List.isPrefixOf]
    | cons x l' =>
      simp only [List.isPrefixOf, Bool.and_eq_true, beq_iff_eq, ih, List.cons_append]
      constructor
      · rintro ⟨rfl, t, rfl⟩; exact ⟨t, rfl⟩
      · rintro ⟨t, ht⟩
        injection ht with h1 h2
        exact ⟨h1.symm, t, h2⟩

theorem occursAtB_le_length (l : List Char) (i : Nat)
    (h : occursAtB l i = true) : i ≤ l.length := by
  by_contra hlt
  push_neg at hlt
  have hd : l.drop i = [] := List.drop_eq_nil_of_le (Nat.le_of_lt hlt)
  rw [occursAtB, hd] at h
  simp [needleChars, List.isPrefixOf] at h

theorem occursAtB_false_of_gt (l : List Char) (i : Nat)
    (h : l.length < i) : occursAtB l i = false := by
  cases hc : occursAtB l i with
  | false => rfl
  | true => exact absurd (occursAtB_le_length l i hc) (Nat.not_le_of_lt h)

theorem rfindFrom_some (l : List Char) (i j : Nat) (h : rfindFrom l i = some j) :
    occursAtB l j = true ∧ j ≤ i ∧ ∀ k, j < k → k ≤ i → occursAtB l k = false := by
  induction i with
  | zero =>
    by_cases h0 : occursAtB l 0 = true
    · simp [rfindFrom, h0] at h
      subst h
      exact ⟨h0, Nat.le_refl 0, fun k hk hk' => absurd (Nat.lt_of_lt_of_le hk hk') (Nat.lt_irrefl 0)⟩
    · simp [rfindFrom, h0] at h
  | succ i ih =>
    by_cases hs : occursAtB l (i + 1) = true
    · simp [rfindFrom, hs] at h
      subst h
      refine ⟨hs, Nat.le_refl _, fun k hk hk' => absurd (Nat.lt_of_lt_of_le hk hk') (Nat.lt_irrefl _)⟩
    · simp [rfindFrom, hs] at h
      obtain ⟨ho, hle, hmax⟩ := ih h
      refine ⟨ho, Nat.le_succ_of_le hle, fun k hk hk' => ?_⟩
      rcases Nat.lt_or_ge k (i + 1) with hlt | hge
      · exact hmax k hk (Nat.lt_succ_iff.mp hlt)
      · have : k = i + 1 := Nat.le_antisymm hk' hge
        subst this
        simpa using hs

theorem rfindFrom_none (l : List Char) (i : Nat) :
    rfindFrom l i = none ↔ ∀ k, k ≤ i → occursAtB l k = false := by
  induction i with
  | zero =>
    constructor
    · intro h k hk
      interval_cases k
      by_cases h0 : occursAtB l 0 = true
      · simp [rfindFrom, h0] at h
      · simpa using h0
    · intro h
      have h0 := h 0 (Nat.le_refl 0)
      simp [rfindFrom, h0]
  | succ i ih =>
    constructor
    · intro h k hk
      by_cases hs : occursAtB l (i + 1) = true
      · simp [rfindFrom, hs] at h
      · simp [rfindFrom, hs] at h
        rcases Nat.lt_or_ge k (i + 1) with hlt | hge
        · exact (ih.mp h) k (Nat.lt_succ_iff.mp hlt)
        · have : k = i + 1 := Nat.le_antisymm hk hge
          subst this
          simpa using hs
    · intro h
      have hs : occursAtB l (i + 1) = false := h (i + 1) (Nat.le_refl _)
      have hrest : rfindFrom l i = none := ih.mpr (fun k hk => h k (Nat.le_succ_of_le hk))
      simp [rfindFrom, hs, hrest]

theorem rfindNeedle_some_of (l : List Char) (i : Nat)
    (hi : occursAtB l i = true)
    (hmax : ∀ j, j ≤ l.length → i < j → occursAtB l j = false) :
    rfindNeedle l = some i := by
  cases h : rfindNeedle l with
  | none =>
    rw [rfindNeedle, rfindFrom_none] at h
    exact absurd (h i (occursAtB_le_length l i hi)) (by simp [hi])
  | some j =>
    obtain ⟨ho, hle, hmax'⟩ := rfindFrom_some l l.length j h
    rcases Nat.lt_trichotomy i j with hlt | heq | hgt
    · exact absurd (hmax j hle hlt) (by simp [ho])
    · rw [heq]
    · exact absurd (hmax' i hgt (occursAtB_le_length l i hi)) (by simp [hi])

theorem OccursN_iff (l : List Char) : OccursN l ↔ ∃ i, occursAtB l i = true := by
  constructor
  · rintro ⟨a, b, rfl⟩
    refine ⟨a.length, ?_⟩
    rw [occursAtB, isPrefixOf_iff_exists]
    exact ⟨b, by rw [List.append_assoc, List.drop_left]⟩
  · rintro ⟨i, hi⟩
    rw [occursAtB, isPrefixOf_iff_exists] at hi
    obtain ⟨t, ht⟩ := hi
    exact ⟨l.take i, t, by rw [List.append_assoc, ← ht, List.take_append_drop]⟩

theorem hasNeedle_false_iff (s : String) : hasNeedle s = false ↔ ¬ OccursN s.data := by
  constructor
  · intro hf hocc
    rw [OccursN_iff] at hocc
    obtain ⟨i, hi⟩ := hocc
    unfold hasNeedle at hf
    cases h : rfindNeedle s.data with
    | some j => rw [h] at hf; simp at hf
    | none =>
      rw [rfindNeedle, rfindFrom_none] at h
      rcases le_or_lt i s.data.length with hle | hlt
      · rw [h i hle] at hi; simp at hi
      · rw [occursAtB_false_of_gt _ _ hlt] at hi; simp at hi
  · intro hno
    unfold hasNeedle
    cases h : rfindNeedle s.data with
    | none => rfl
    | some j =>
      exfalso
      obtain ⟨ho, _, _⟩ := rfindFrom_some s.data s.data.length j h
      have hex : ∃ i, occursAtB s.data i = true := ⟨j, ho⟩
      exact hno ((OccursN_iff s.data).mpr hex)

theorem truncChars_of_no_needle (l : List Char)
    (h : ∀ i, occursAtB l i = false) : truncChars l = l := by
  have : rfindNeedle l = none := by
    rw [rfindNeedle, rfindFrom_none]; exact fun k _ => h k
  simp [truncChars, this]

theorem truncStr_of_hasNeedle_false (s : String) (h : hasNeedle s = false) :
    truncStr s = s := by
  rw [hasNeedle_false_iff, OccursN_iff] at h
  have : truncChars s.data = s.data :=
    truncChars_of_no_needle s.data (fun i => by
      cases hc : occursAtB s.data i with
      | false => rfl
      | true => exact absurd (⟨i, hc⟩ : ∃ i, occursAtB s.data i = true) h)
  simp [truncStr, this]

/-! ### C1: where the truncation cuts -/

/-- C1 counterexample: `insert` and `from_json_string` truncate at the LAST
`" at line"` occurrence, not the first.  Storing "x at line 1 at line 2"
keeps "x at line 1" (first-occurrence truncation would keep only "x"), and
reparsing a serialized collector followed by two positional suffixes fails
(first-occurrence truncation would strip both and succeed). -/
theorem insert_not_first_occurrence_cex :
    ((StructValidator.new.insert "k" "x at line 1 at line 2").get "k" = some "x at line 1") ∧
    ((StructValidator.new.insert "k" "x at line 1 at line 2").get "k" ≠ some "x") ∧
    isOkE (StructValidator.from_json_string "\x7b\"errors\":\x7b\x7d\x7d at line 1 at line 2") = false := by
  refine ⟨by decide, by decide, by decide⟩

/-- C1 (amended): every message stored via `insert` and every text passed to
`from_json_string` is truncated at the LAST occurrence of `" at line"`
(everything from that occurrence onward is dropped); if the substring is
absent the text is kept whole. -/
theorem insert_and_reparse_truncate_at_last_occurrence (sv : StructValidator) (k v : String) :
    ((sv.insert k v).get k = some (truncStr v)) ∧
    (∀ s : String, StructValidator.from_json_string s = parseTop (truncChars s.data)) ∧
    (hasNeedle v = false → truncStr v = v) ∧
    (∀ i : Nat, occursAtB v.data i = true →
      (∀ j, j ≤ v.data.length → i < j → occursAtB v.data j = false) →
      truncStr v = String.mk (v.data.take i)) := by
  refine ⟨get_insert_self sv k v, fun s => rfl, truncStr_of_hasNeedle_false v, ?_⟩
  intro i hi hmax
  have hr : rfindNeedle v.data = some i := rfindNeedle_some_of v.data i hi hmax
  simp [truncStr, truncChars, hr]

/-- Witness for the amended C1 at a concrete input with two occurrences. -/
theorem insert_truncation_witness :
    truncStr "x at line 1 at line 2" = String.mk ("x at line 1 at line 2".data.take 11) :=
  (insert_and_reparse_truncate_at_last_occurrence StructValidator.new "k"
    "x at line 1 at line 2").2.2.2 11 (by decide) (by decide)

/-! ### C10: Extend over pairs does not truncate -/

/-- C10: merging `(key, message)` pairs into a collector via the
`Extend<(String, String)>` implementation stores each message verbatim —
unlike `insert`, which stores the `" at line"`-truncated message — so a
merged message containing `" at line"` is kept in full. -/
theorem extend_pairs_no_truncation (sv : StructValidator) (k m : String) :
    ((sv.extendPairs [(k, m)]).get k = some m) ∧
    ((StructValidator.new.insert k m).get k = some (truncStr m)) ∧
    ((StructValidator.new.extendPairs [("k", "x at line 1")]).get "k" = some "x at line 1") ∧
    truncStr "x at line 1" = "x" := by
  refine ⟨?_, get_insert_self _ _ _, by decide, by decide⟩
  exact lookupMsg_mapInsert_self sv.errors k m

/-! ### C8: reducing a result sequence into one collector -/

theorem orO_assoc {α : Type} (a b c : Option α) : orO (orO a b) c = orO a (orO b c) := by
  cases a <;> simp [orO]

theorem orO_none_right {α : Type} (a : Option α) : orO a none = a := by
  cases a <;> simp [orO]

theorem getLast?_append_eq {α : Type} (x y : List α) :
    (x ++ y).getLast? = orO y.getLast? x.getLast? := by
  cases y with
  | nil => simp [orO]
  | cons b ys =>
    rw [List.getLast?_append_cons]
    cases h : (b :: ys).getLast? with
    | none =>
      have : (b :: ys : List α) = [] := by rwa [List.getLast?_eq_none_iff] at h
      cases this
    | some a => simp [orO]

theorem lastValFor_append (a b : List (String × String)) (k : String) :
    lastValFor (a ++ b) k = orO (lastValFor b k) (lastValFor a k) := by
  unfold lastValFor
  rw [List.filter_append, getLast?_append_eq]
  cases (b.filter (fun p => decide (p.1 = k))).getLast? <;> simp [orO]

theorem lastValFor_singleton (p : String × String) (k : String) :
    lastValFor [p] k = if p.1 = k then some p.2 else none := by
  by_cases hk : p.1 = k <;> simp [lastValFor, List.filter_cons, hk]

theorem get_mapInsert_orO (sv : StructValidator) (p : String × String) (k : String) :
    StructValidator.get ⟨mapInsert sv.errors p.1 p.2⟩ k =
      orO (if p.1 = k then some p.2 else none) (sv.get k) := by
  by_cases hk : p.1 = k
  · subst hk
    simp only [if_pos rfl, orO]
    exact lookupMsg_mapInsert_self sv.errors p.1 p.2
  · simp only [if_neg hk, orO]
    exact lookupMsg_mapInsert_ne sv.errors p.1 p.2 k (fun hh => hk hh.symm)

theorem get_extendPairs (sv : StructValidator) (ps : List (String × String)) (k : String) :
    (sv.extendPairs ps).get k = orO (lastValFor ps k) (sv.get k) := by
  induction ps generalizing sv with
  | nil => simp [StructValidator.extendPairs, lastValFor, orO, StructValidator.get]
  | cons p rest ih =>
    have hstep : sv.extendPairs (p :: rest) =
        (StructValidator.mk (mapInsert sv.errors p.1 p.2)).extendPairs rest := rfl
    have hsplit : (p :: rest : List (String × String)) = [p] ++ rest := rfl
    rw [hstep, ih, hsplit, lastValFor_append, lastValFor_singleton, orO_assoc]
    exact congrArg (orO (lastValFor rest k)) (get_mapInsert_orO sv p k)

theorem from_iter_fold_get {β : Type} (l : List (Except StructValidator β))
    (acc : StructValidator) (k : String) :
    (l.foldl (fun acc r => match r with
      | .ok _ => acc
      | .error e => acc.extendPairs e.errors) acc).get k =
      orO (lastValFor (errPairs l) k) (acc.get k) := by
  induction l generalizing acc with
  | nil => simp [errPairs, lastValFor, orO]
  | cons r rest ih =>
    cases r with
    | ok v =>
      simp only [List.foldl_cons]
      rw [ih]
      have he : errPairs (Except.ok v :: rest : List (Except StructValidator β)) =
          errPairs rest := by
        simp [errPairs, List.filterMap_cons]
      rw [he]
    | error e =>
      simp only [List.foldl_cons]
      rw [ih]
      have he : errPairs (Except.error e :: rest : List (Except StructValidator β)) =
          e.errors ++ errPairs rest := by
        simp [errPairs, List.filterMap_cons]
      rw [he, lastValFor_append, get_extendPairs, orO_assoc]

theorem from_iter_skips_ok {β : Type} (l : List (Except StructValidator β))
    (acc : StructValidator) :
    (l.foldl (fun acc r => match r with
      | .ok _ => acc
      | .error e => acc.extendPairs e.errors) acc) =
    ((l.filter (fun r => !(isOkE r))).foldl (fun acc r => match r with
      | .ok _ => acc
      | .error e => acc.extendPairs e.errors) acc) := by
  induction l generalizing acc with
  | nil => rfl
  | cons r rest ih =>
    cases r with
    | ok v => simp only [List.foldl_cons, List.filter_cons, isOkE]; exact ih acc
    | error e => simp only [List.foldl_cons, List.filter_cons, isOkE]; exact ih _

/-- C8: collecting a sequence of `Result<_, ErrorCollector>` values into one
collector yields exactly the key-wise union of the `Err` collectors' entries,
later entries overwriting earlier ones on key collision (the lookup of the
result at any key is the last value the concatenated error entries carry for
that key); `Ok` entries contribute nothing (filtering them out changes
nothing), and `[Ok v1, Err c1, Ok v2, Err c2]` reduces to exactly the merge
of `c1` and `c2`. -/
theorem from_iter_results_union {β : Type} (l : List (Except StructValidator β))
    (k : String) (v1 v2 : β) (c1 c2 : StructValidator) :
    ((StructValidator.from_iter_results l).get k = lastValFor (errPairs l) k) ∧
    (StructValidator.from_iter_results l =
      StructValidator.from_iter_results (l.filter (fun r => !(isOkE r)))) ∧
    (StructValidator.from_iter_results [Except.ok v1, Except.error c1, Except.ok v2, Except.error c2] =
      (StructValidator.new.extendPairs c1.errors).extendPairs c2.errors) := by
  refine ⟨?_, from_iter_skips_ok l StructValidator.new, rfl⟩
  have h := from_iter_fold_get l StructValidator.new k
  rw [StructValidator.from_iter_results, h]
  have hnew : StructValidator.new.get k = none := rfl
  rw [hnew, orO_none_right]

/-! ### Decode loop: step lemmas -/

theorem findDec_eq_none {α : Type} (sch : List (String × (JVal → Except String α)))
    (k : String) (h : k ∉ namesOf sch) : findDec sch k = none := by
  induction sch with
  | nil => rfl
  | cons p rest ih =>
    simp only [namesOf, List.map_cons, List.mem_cons, not_or] at h
    rw [findDec, if_neg (fun hh => h.1 hh.symm)]
    exact ih h.2

theorem findDec_some_mem {α : Type} (sch : List (String × (JVal → Except String α)))
    (k : String) (d : JVal → Except String α) (h : findDec sch k = some d) :
    (k, d) ∈ sch := by
  induction sch with
  | nil => simp [findDec] at h
  | cons p rest ih =>
    by_cases hp : p.1 = k
    · subst hp
      rw [findDec, if_pos rfl] at h
      injection h with h2
      subst h2
      exact List.mem_cons_self p rest
    · rw [findDec, if_neg hp] at h
      exact List.mem_cons_of_mem p (ih h)

theorem findDec_of_mem {α : Type} (sch : List (String × (JVal → Except String α)))
    (p : String × (JVal → Except String α)) (hnd : (namesOf sch).Nodup)
    (hp : p ∈ sch) : findDec sch p.1 = some p.2 := by
  induction sch with
  | nil => cases hp
  | cons q rest ih =>
    rcases List.mem_cons.mp hp with rfl | hmem
    · simp [findDec]
    · have hq : q.1 ≠ p.1 := by
        intro he
        have : p.1 ∈ namesOf rest := List.mem_map_of_mem Prod.fst hmem
        rw [← he] at this
        exact (List.nodup_cons.mp hnd).1 this
      simp [findDec, hq]
      exact ih (List.nodup_cons.mp hnd).2 hmem

theorem stepField_unknown {α : Type} (sch : List (String × (JVal → Except String α)))
    (slots : List (Option α)) (sv : StructValidator) (k : String) (v : JVal)
    (hk : findDec sch k = none) : stepField sch slots sv k v = (slots, sv) := by
  induction sch generalizing slots with
  | nil => cases slots <;> rfl
  | cons p rest ih =>
    cases slots with
    | nil => rfl
    | cons s slots' =>
      by_cases hp : p.1 = k
      · simp [findDec, hp] at hk
      · simp only [findDec, hp, if_neg hp] at hk
        simp [stepField, hp, ih slots' hk]

theorem stepField_len {α : Type} (sch : List (String × (JVal → Except String α)))
    (slots : List (Option α)) (sv : StructValidator) (k : String) (v : JVal) :
    (stepField sch slots sv k v).1.length = slots.length := by
  induction sch generalizing slots with
  | nil => cases slots <;> rfl
  | cons p rest ih =>
    cases slots with
    | nil => rfl
    | cons s slots' =>
      by_cases hp : p.1 = k
      · simp only [stepField, if_pos hp]
        cases decodeOptVal p.2 v <;> simp
      · simp only [stepField, if_neg hp]
        simp [ih slots']

theorem stepField_sv {α : Type} (sch : List (String × (JVal → Except String α)))
    (slots : List (Option α)) (sv : StructValidator) (k : String) (v : JVal)
    (hlen : slots.length = sch.length) :
    (stepField sch slots sv k v).2 =
      match findDec sch k with
      | some d =>
        match decodeOptVal d v with
        | .ok _ => sv
        | .error e => sv.insert k e
      | none => sv := by
  induction sch generalizing slots with
  | nil =>
    cases slots with
    | nil => rfl
    | cons s slots' => simp at hlen
  | cons p rest ih =>
    cases slots with
    | nil => simp at hlen
    | cons s slots' =>
      simp only [List.length_cons, Nat.succ.injEq] at hlen
      by_cases hp : p.1 = k
      · subst hp
        have hf : findDec (p :: rest) p.1 = some p.2 := by
          rw [findDec, if_pos rfl]
        rw [hf]
        simp only [stepField, if_pos rfl]
        cases hdv : decodeOptVal p.2 v <;> simp [hdv]
      · simp only [stepField, if_neg hp, findDec, hp]
        exact ih slots' hlen

theorem stepField_slotOf_ne {α : Type} (sch : List (String × (JVal → Except String α)))
    (slots : List (Option α)) (sv : StructValidator) (k : String) (v : JVal)
    (g : String) (hg : g ≠ k) :
    slotOf sch (stepField sch slots sv k v).1 g = slotOf sch slots g := by
  induction sch generalizing slots with
  | nil => cases slots <;> rfl
  | cons p rest ih =>
    cases slots with
    | nil => rfl
    | cons s slots' =>
      by_cases hp : p.1 = k
      · have hpg : p.1 ≠ g := fun hh => hg (by rw [← hh, hp])
        simp only [stepField, if_pos hp]
        cases decodeOptVal p.2 v <;> simp [slotOf, hpg]
      · simp only [stepField, if_neg hp]
        by_cases hpg : p.1 = g
        · simp [slotOf, hpg]
        · simp [slotOf, hpg, ih slots']

theorem stepField_slotOf_self {α : Type} (sch : List (String × (JVal → Except String α)))
    (slots : List (Option α)) (sv : StructValidator) (k : String) (v : JVal)
    (hlen : slots.length = sch.length) :
    slotOf sch (stepField sch slots sv k v).1 k =
      match findDec sch k with
      | some d =>
        match decodeOptVal d v with
        | .ok o => o
        | .error _ => slotOf sch slots k
      | none => slotOf sch slots k := by
  induction sch generalizing slots with
  | nil =>
    cases slots with
    | nil => rfl
    | cons s slots' => simp at hlen
  | cons p rest ih =>
    cases slots with
    | nil => simp at hlen
    | cons s slots' =>
      simp only [List.length_cons, Nat.succ.injEq] at hlen
      by_cases hp : p.1 = k
      · subst hp
        have hf : findDec (p :: rest) p.1 = some p.2 := by rw [findDec, if_pos rfl]
        rw [hf]
        simp only [stepField, if_pos rfl]
        cases hdv : decodeOptVal p.2 v <;> simp [hdv, slotOf]
      · simp only [stepField, if_neg hp, findDec, hp, slotOf]
        exact ih slots' hlen

/-! ### fieldFails / fieldOks unfolding -/

theorem fieldFails_cons_ne {α : Type} (d : JVal → Except String α) (k : String) (v : JVal)
    (rest : List (String × JVal)) (f : String) (hk : k ≠ f) :
    fieldFails d ((k, v) :: rest) f = fieldFails d rest f := by
  simp [fieldFails, List.filterMap_cons, hk]

theorem fieldFails_cons_ok {α : Type} (d : JVal → Except String α) (v : JVal)
    (rest : List (String × JVal)) (f : String) (o : Option α)
    (ho : decodeOptVal d v = .ok o) :
    fieldFails d ((f, v) :: rest) f = fieldFails d rest f := by
  simp [fieldFails, List.filterMap_cons, ho]

theorem fieldFails_cons_err {α : Type} (d : JVal → Except String α) (v : JVal)
    (rest : List (String × JVal)) (f : String) (e : String)
    (he : decodeOptVal d v = .error e) :
    fieldFails d ((f, v) :: rest) f = e :: fieldFails d rest f := by
  simp [fieldFails, List.filterMap_cons, he]

theorem fieldOks_cons_ne {α : Type} (d : JVal → Except String α) (k : String) (v : JVal)
    (rest : List (String × JVal)) (f : String) (hk : k ≠ f) :
    fieldOks d ((k, v) :: rest) f = fieldOks d rest f := by
  simp [fieldOks, List.filterMap_cons, hk]

theorem fieldOks_cons_ok {α : Type} (d : JVal → Except String α) (v : JVal)
    (rest : List (String × JVal)) (f : String) (o : Option α)
    (ho : decodeOptVal d v = .ok o) :
    fieldOks d ((f, v) :: rest) f = o :: fieldOks d rest f := by
  simp [fieldOks, List.filterMap_cons, ho]

theorem fieldOks_cons_err {α : Type} (d : JVal → Except String α) (v : JVal)
    (rest : List (String × JVal)) (f : String) (e : String)
    (he : decodeOptVal d v = .error e) :
    fieldOks d ((f, v) :: rest) f = fieldOks d rest f := by
  simp [fieldOks, List.filterMap_cons, he]

/-! ### Decode loop: whole-loop characterization -/

theorem loopFrom_len {α : Type} (sch : List (String × (JVal → Except String α)))
    (input : List (String × JVal)) :
    ∀ st : List (Option α) × StructValidator,
      (loopFrom sch st input).1.length = st.1.length := by
  induction input with
  | nil => intro st; rfl
  | cons kv rest ih =>
    intro st
    have hstep : loopFrom sch st (kv :: rest) =
        loopFrom sch (stepField sch st.1 st.2 kv.1 kv.2) rest := rfl
    rw [hstep]
    rw [ih (stepField sch st.1 st.2 kv.1 kv.2)]
    exact stepField_len sch st.1 st.2 kv.1 kv.2

theorem loopFrom_get {α : Type} (sch : List (String × (JVal → Except String α)))
    (input : List (String × JVal)) (f : String) (d : JVal → Except String α)
    (hd : findDec sch f = some d) :
    ∀ st : List (Option α) × StructValidator, st.1.length = sch.length →
    (loopFrom sch st input).2.get f =
      match (fieldFails d input f).getLast? with
      | some e => some (truncStr e)
      | none => st.2.get f := by
  induction input with
  | nil =>
    intro st hst
    simp [loopFrom, fieldFails]
  | cons kv rest ih =>
    intro st hst
    obtain ⟨k, v⟩ := kv
    have hstep : loopFrom sch st ((k, v) :: rest) =
        loopFrom sch (stepField sch st.1 st.2 k v) rest := rfl
    rw [hstep]
    have hlen' : (stepField sch st.1 st.2 k v).1.length = sch.length := by
      rw [stepField_len]; exact hst
    have hrec := ih (stepField sch st.1 st.2 k v) hlen'
    by_cases hk : k = f
    · subst hk
      have hsv : (stepField sch st.1 st.2 k v).2 =
          match decodeOptVal d v with
          | .ok _ => st.2
          | .error e => st.2.insert k e := by
        rw [stepField_sv sch st.1 st.2 k v hst, hd]
      cases hdv : decodeOptVal d v with
      | ok o =>
        rw [hrec, fieldFails_cons_ok d v rest k o hdv]
        cases hl : (fieldFails d rest k).getLast? <;> simp [hsv, hdv]
      | error e =>
        rw [hrec, fieldFails_cons_err d v rest k e hdv]
        cases hl : (fieldFails d rest k).getLast? with
        | none =>
          have hnil : fieldFails d rest k = [] := by
            rwa [List.getLast?_eq_none_iff] at hl
          rw [hnil]
          simp [hsv, hdv, get_insert_self]
        | some e' =>
          cases hfl : fieldFails d rest k with
          | nil => rw [hfl] at hl; simp at hl
          | cons q l =>
            rw [hfl] at hl
            rw [List.getLast?_cons_cons, hl]
    · have hsvne : (stepField sch st.1 st.2 k v).2.get f = st.2.get f := by
        have h2 := stepField_sv sch st.1 st.2 k v hst
        cases hfd : findDec sch k with
        | none => simp only [hfd] at h2; rw [h2]
        | some dk =>
          simp only [hfd] at h2
          cases hdv : decodeOptVal dk v with
          | ok o => simp only [hdv] at h2; rw [h2]
          | error e =>
            simp only [hdv] at h2
            rw [h2]
            exact get_insert_ne st.2 k e f (fun hh => hk hh.symm)
      rw [hrec, fieldFails_cons_ne d k v rest f hk, hsvne]

theorem loopFrom_slotOf {α : Type} (sch : List (String × (JVal → Except String α)))
    (input : List (String × JVal)) (f : String) (d : JVal → Except String α)
    (hd : findDec sch f = some d) :
    ∀ st : List (Option α) × StructValidator, st.1.length = sch.length →
    slotOf sch (loopFrom sch st input).1 f =
      (fieldOks d input f).getLast?.getD (slotOf sch st.1 f) := by
  induction input with
  | nil =>
    intro st hst
    simp [loopFrom, fieldOks]
  | cons kv rest ih =>
    intro st hst
    obtain ⟨k, v⟩ := kv
    have hstep : loopFrom sch st ((k, v) :: rest) =
        loopFrom sch (stepField sch st.1 st.2 k v) rest := rfl
    rw [hstep]
    have hlen' : (stepField sch st.1 st.2 k v).1.length = sch.length := by
      rw [stepField_len]; exact hst
    have hrec := ih (stepField sch st.1 st.2 k v) hlen'
    by_cases hk : k = f
    · subst hk
      have hslot := stepField_slotOf_self sch st.1 st.2 k v hst
      simp only [hd] at hslot
      cases hdv : decodeOptVal d v with
      | ok o =>
        simp only [hdv] at hslot
        rw [hrec, fieldOks_cons_ok d v rest k o hdv, hslot]
        cases hfo : fieldOks d rest k with
        | nil => simp
        | cons q l =>
          rw [List.getLast?_cons_cons]
          cases hgl : (q :: l).getLast? with
          | none =>
            have : (q :: l : List (Option α)) = [] := by
              rwa [List.getLast?_eq_none_iff] at hgl
            cases this
          | some a => simp
      | error e =>
        simp only [hdv] at hslot
        rw [hrec, fieldOks_cons_err d v rest k e hdv, hslot]
    · have hslotne := stepField_slotOf_ne sch st.1 st.2 k v f (fun hh => hk hh.symm)
      rw [hrec, fieldOks_cons_ne d k v rest f hk, hslotne]

theorem loopFrom_get_unknown {α : Type} (sch : List (String × (JVal → Except String α)))
    (input : List (String × JVal)) (g : String) (hg : findDec sch g = none) :
    ∀ st : List (Option α) × StructValidator, st.1.length = sch.length →
    (loopFrom sch st input).2.get g = st.2.get g := by
  induction input with
  | nil => intro st hst; rfl
  | cons kv rest ih =>
    intro st hst
    obtain ⟨k, v⟩ := kv
    have hstep : loopFrom sch st ((k, v) :: rest) =
        loopFrom sch (stepField sch st.1 st.2 k v) rest := rfl
    rw [hstep]
    have hlen' : (stepField sch st.1 st.2 k v).1.length = sch.length := by
      rw [stepField_len]; exact hst
    have hsv : (stepField sch st.1 st.2 k v).2.get g = st.2.get g := by
      have h2 := stepField_sv sch st.1 st.2 k v hst
      cases hfd : findDec sch k with
      | none => simp only [hfd] at h2; rw [h2]
      | some dk =>
        simp only [hfd] at h2
        cases hdv : decodeOptVal dk v with
        | ok o => simp only [hdv] at h2; rw [h2]
        | error e =>
          simp only [hdv] at h2
          rw [h2]
          refine get_insert_ne st.2 k e g (fun hh => ?_)
          rw [hh, hfd] at hg
          cases hg
    rw [ih (stepField sch st.1 st.2 k v) hlen', hsv]

theorem slotOf_initSlots {α : Type} (sch : List (String × (JVal → Except String α)))
    (f : String) : slotOf sch (initSlots (α := α) sch) f = none := by
  induction sch with
  | nil => rfl
  | cons p rest ih =>
    by_cases hp : p.1 = f <;> simp [initSlots, slotOf, hp] <;> simpa [initSlots] using ih

/-! ### Sweep characterization -/

theorem contains_insert_ne (sv : StructValidator) (k v g : String) (h : g ≠ k) :
    (sv.insert k v).contains g = sv.contains g := by
  unfold StructValidator.contains
  rw [get_insert_ne sv k v g h]

theorem truncStr_missing : truncStr "field is missing" = "field is missing" := by decide

theorem sweepSV_get {α : Type} (sch : List (String × (JVal → Except String α))) :
    ∀ (slots : List (Option α)) (sv : StructValidator) (g : String),
      slots.length = sch.length → (namesOf sch).Nodup →
      (sweepSV sch slots sv).get g =
        if (findDec sch g).isSome && (slotOf sch slots g).isNone && !(sv.contains g)
        then some "field is missing" else sv.get g := by
  induction sch with
  | nil =>
    intro slots sv g hlen hnd
    cases slots with
    | nil => simp [sweepSV, findDec, slotOf]
    | cons s slots' => simp at hlen
  | cons p rest ih =>
    intro slots sv g hlen hnd
    cases slots with
    | nil => simp at hlen
    | cons s slots' =>
      simp only [List.length_cons, Nat.succ.injEq] at hlen
      have hndc : p.1 ∉ namesOf rest ∧ (namesOf rest).Nodup := by
        rw [show namesOf (p :: rest) = p.1 :: namesOf rest from rfl, List.nodup_cons] at hnd
        exact hnd
      have hnd' : (namesOf rest).Nodup := hndc.2
      by_cases hg : p.1 = g
      · subst hg
        have hfd : findDec (p :: rest) p.1 = some p.2 := by rw [findDec, if_pos rfl]
        have hfd' : findDec rest p.1 = none := findDec_eq_none rest p.1 hndc.1
        by_cases hcond : (s.isNone && !(sv.contains p.1)) = true
        · have hstep : sweepSV (p :: rest) (s :: slots') sv =
              sweepSV rest slots' (sv.insert p.1 "field is missing") := by
            simp [sweepSV, hcond]
          rw [hstep, ih slots' _ p.1 hlen hnd', hfd']
          simp only [Option.isSome_none, Bool.false_and, if_false, Bool.false_eq_true]
          rw [get_insert_self, truncStr_missing, hfd]
          simp [slotOf, hcond]
        · have hc' : (s.isNone && !(sv.contains p.1)) = false :=
            Bool.eq_false_iff.mpr hcond
          have hstep : sweepSV (p :: rest) (s :: slots') sv = sweepSV rest slots' sv := by
            simp [sweepSV, hc']
          rw [hstep, ih slots' sv p.1 hlen hnd', hfd']
          simp only [Option.isSome_none, Bool.false_and, if_false, Bool.false_eq_true]
          rw [hfd]
          simp [slotOf, hc']
      · have hfdg : findDec (p :: rest) g = findDec rest g := by rw [findDec, if_neg hg]
        have hslotg : slotOf (p :: rest) (s :: slots') g = slotOf rest slots' g := by
          simp [slotOf, hg]
        have hgne : g ≠ p.1 := fun hh => hg hh.symm
        by_cases hcond : (s.isNone && !(sv.contains p.1)) = true
        · have hstep : sweepSV (p :: rest) (s :: slots') sv =
              sweepSV rest slots' (sv.insert p.1 "field is missing") := by
            simp [sweepSV, hcond]
          rw [hstep, ih slots' _ g hlen hnd', hfdg, hslotg,
            contains_insert_ne sv p.1 _ g hgne, get_insert_ne sv p.1 _ g hgne]
        · have hc' : (s.isNone && !(sv.contains p.1)) = false :=
            Bool.eq_false_iff.mpr hcond
          have hstep : sweepSV (p :: rest) (s :: slots') sv = sweepSV rest slots' sv := by
            simp [sweepSV, hc']
          rw [hstep, ih slots' sv g hlen hnd', hfdg, hslotg]

theorem sweepSV_preserves {α : Type} (sch : List (String × (JVal → Except String α))) :
    ∀ (slots : List (Option α)) (sv : StructValidator) (g val : String),
      sv.get g = some val → (sweepSV sch slots sv).get g = some val := by
  induction sch with
  | nil => intro slots sv g val h; cases slots <;> simpa [sweepSV]
  | cons p rest ih =>
    intro slots sv g val h
    cases slots with
    | nil => simpa [sweepSV]
    | cons s slots' =>
      by_cases hcond : (s.isNone && !(sv.contains p.1)) = true
      · have hstep : sweepSV (p :: rest) (s :: slots') sv =
            sweepSV rest slots' (sv.insert p.1 "field is missing") := by
          simp [sweepSV, hcond]
        rw [hstep]
        apply ih
        by_cases hgp : g = p.1
        · have hcf : sv.contains p.1 = false := by
            have := (Bool.and_eq_true _ _).mp hcond
            simpa using this.2
          rw [contains_false_iff_get] at hcf
          rw [hgp, hcf] at h
          cases h
        · rw [get_insert_ne sv p.1 _ g hgp]
          exact h
      · have hc' : (s.isNone && !(sv.contains p.1)) = false :=
          Bool.eq_false_iff.mpr hcond
        have hstep : sweepSV (p :: rest) (s :: slots') sv = sweepSV rest slots' sv := by
          simp [sweepSV, hc']
        rw [hstep]
        exact ih slots' sv g val h

theorem sweepSV_changed {α : Type} (sch : List (String × (JVal → Except String α))) :
    ∀ (slots : List (Option α)) (sv : StructValidator) (g : String),
      (sweepSV sch slots sv).get g ≠ sv.get g →
      sv.contains g = false ∧ (sweepSV sch slots sv).get g = some "field is missing" := by
  induction sch with
  | nil => intro slots sv g h; cases slots <;> exact absurd rfl h
  | cons p rest ih =>
    intro slots sv g h
    cases slots with
    | nil => exact absurd rfl h
    | cons s slots' =>
      by_cases hcond : (s.isNone && !(sv.contains p.1)) = true
      · have hstep : sweepSV (p :: rest) (s :: slots') sv =
            sweepSV rest slots' (sv.insert p.1 "field is missing") := by
          simp [sweepSV, hcond]
        rw [hstep] at h ⊢
        by_cases hgp : g = p.1
        · have hcf : sv.contains p.1 = false := by
            have := (Bool.and_eq_true _ _).mp hcond
            simpa using this.2
          refine ⟨by rw [hgp]; exact hcf, ?_⟩
          have hins : (sv.insert p.1 "field is missing").get p.1 = some "field is missing" := by
            rw [get_insert_self, truncStr_missing]
          rw [hgp]
          exact sweepSV_preserves rest slots' _ p.1 _ hins
        · have hins : (sv.insert p.1 "field is missing").get g = sv.get g :=
            get_insert_ne sv p.1 _ g hgp
          have h' : (sweepSV rest slots' (sv.insert p.1 "field is missing")).get g ≠
              (sv.insert p.1 "field is missing").get g := by
            rw [hins]; exact h
          obtain ⟨hc, hval⟩ := ih slots' _ g h'
          refine ⟨?_, hval⟩
          rw [← contains_insert_ne sv p.1 "field is missing" g hgp]
          exact hc
      · have hc' : (s.isNone && !(sv.contains p.1)) = false :=
          Bool.eq_false_iff.mpr hcond
        have hstep : sweepSV (p :: rest) (s :: slots') sv = sweepSV rest slots' sv := by
          simp [sweepSV, hc']
        rw [hstep] at h ⊢
        exact ih slots' sv g h

theorem sweepSV_empty {α : Type} (sch : List (String × (JVal → Except String α))) :
    ∀ (slots : List (Option α)) (sv : StructValidator), slots.length = sch.length →
      (sweepSV sch slots sv).is_empty = true →
      sv.is_empty = true ∧ ∀ s ∈ slots, s.isSome = true := by
  induction sch with
  | nil =>
    intro slots sv hlen h
    cases slots with
    | nil => exact ⟨h, by simp⟩
    | cons s slots' => simp at hlen
  | cons p rest ih =>
    intro slots sv hlen h
    cases slots with
    | nil => simp at hlen
    | cons s slots' =>
      simp only [List.length_cons, Nat.succ.injEq] at hlen
      by_cases hcond : (s.isNone && !(sv.contains p.1)) = true
      · have hstep : sweepSV (p :: rest) (s :: slots') sv =
            sweepSV rest slots' (sv.insert p.1 "field is missing") := by
          simp [sweepSV, hcond]
        rw [hstep] at h
        obtain ⟨hsv', _⟩ := ih slots' _ hlen h
        have hfalse := is_empty_insert sv p.1 "field is missing"
        rw [hsv'] at hfalse
        cases hfalse
      · have hc' : (s.isNone && !(sv.contains p.1)) = false :=
          Bool.eq_false_iff.mpr hcond
        have hstep : sweepSV (p :: rest) (s :: slots') sv = sweepSV rest slots' sv := by
          simp [sweepSV, hc']
        rw [hstep] at h
        obtain ⟨hsv, hall⟩ := ih slots' sv hlen h
        refine ⟨hsv, ?_⟩
        intro x hx
        rcases List.mem_cons.mp hx with rfl | hx'
        · cases hs : x.isNone with
          | false =>
            cases x with
            | none => simp at hs
            | some _ => rfl
          | true =>
            exfalso
            rw [hs, Bool.true_and] at hc'
            have hcont : sv.contains p.1 = true := by
              cases hcb : sv.contains p.1 with
              | true => rfl
              | false => rw [hcb] at hc'; simp at hc'
            have hgetn : sv.get p.1 = none := get_of_is_empty sv p.1 hsv
            have hcf : sv.contains p.1 = false := (contains_false_iff_get sv p.1).mpr hgetn
            rw [hcont] at hcf
            cases hcf
        · exact hall x hx'

theorem unwrapSlots_ok {α : Type} (sch : List (String × (JVal → Except String α))) :
    ∀ (slots : List (Option α)), slots.length = sch.length →
      (∀ s ∈ slots, s.isSome = true) → ∃ vs, unwrapSlots sch slots = .ok vs := by
  induction sch with
  | nil =>
    intro slots _ _
    refine ⟨[], ?_⟩
    cases slots <;> rfl
  | cons p rest ih =>
    intro slots hlen hall
    cases slots with
    | nil => simp at hlen
    | cons s slots' =>
      have hs := hall s (List.mem_cons_self s slots')
      cases s with
      | none => simp at hs
      | some v =>
        obtain ⟨vs, hvs⟩ := ih slots' (by simpa using hlen)
          (fun x hx => hall x (List.mem_cons_of_mem _ hx))
        exact ⟨v :: vs, by simp [unwrapSlots, hvs, Except.map]⟩

/-! ### Whole-decode characterization -/

theorem loopRun_len {α : Type} (sch : List (String × (JVal → Except String α)))
    (input : List (String × JVal)) : (loopRun sch input).1.length = sch.length := by
  rw [loopRun, loopFrom_len]
  simp [initSlots]

theorem decodeStruct_eq {α : Type} (sch : List (String × (JVal → Except String α)))
    (input : List (String × JVal)) :
    decodeStruct sch input =
      if (finalSV sch input).is_empty then unwrapSlots sch (loopRun sch input).1
      else .error (finalSV sch input).to_json_string := rfl

theorem decode_error_of_not_empty {α : Type} (sch : List (String × (JVal → Except String α)))
    (input : List (String × JVal)) (h : (finalSV sch input).is_empty = false) :
    decodeStruct sch input = .error (finalSV sch input).to_json_string := by
  rw [decodeStruct_eq, h]
  simp

theorem decode_ok_of_empty {α : Type} (sch : List (String × (JVal → Except String α)))
    (input : List (String × JVal)) (h : (finalSV sch input).is_empty = true) :
    ∃ r, decodeStruct sch input = .ok r := by
  have hsw : (sweepSV sch (loopRun sch input).1 (loopRun sch input).2).is_empty = true := h
  obtain ⟨_, hall⟩ := sweepSV_empty sch (loopRun sch input).1 (loopRun sch input).2
    (loopRun_len sch input) hsw
  obtain ⟨vs, hvs⟩ := unwrapSlots_ok sch (loopRun sch input).1 (loopRun_len sch input) hall
  refine ⟨vs, ?_⟩
  rw [decodeStruct_eq, h]
  simpa using hvs

theorem finalSV_get_field {α : Type} (sch : List (String × (JVal → Except String α)))
    (input : List (String × JVal)) (f : String) (d : JVal → Except String α)
    (hnd : (namesOf sch).Nodup) (hd : findDec sch f = some d) :
    (finalSV sch input).get f =
      match (fieldFails d input f).getLast? with
      | some e => some (truncStr e)
      | none => if (fieldLastOk d input f).isNone then some "field is missing" else none := by
  have hlen0 : (initSlots (α := α) sch, StructValidator.new).1.length = sch.length := by
    simp [initSlots]
  have hrun : loopRun sch input =
      loopFrom sch (initSlots sch, StructValidator.new) input := rfl
  have hget := loopFrom_get sch input f d hd (initSlots sch, StructValidator.new) hlen0
  have hslot := loopFrom_slotOf sch input f d hd (initSlots sch, StructValidator.new) hlen0
  rw [← hrun] at hget hslot
  rw [show (initSlots (α := α) sch, StructValidator.new).1 = initSlots sch from rfl,
    slotOf_initSlots] at hslot
  have hfl : (fieldOks d input f).getLast?.getD none = fieldLastOk d input f := rfl
  rw [hfl] at hslot
  have hsw := sweepSV_get sch (loopRun sch input).1 (loopRun sch input).2 f
    (loopRun_len sch input) hnd
  rw [show finalSV sch input =
    sweepSV sch (loopRun sch input).1 (loopRun sch input).2 from rfl, hsw, hd, hslot]
  cases hlast : (fieldFails d input f).getLast? with
  | some e =>
    rw [hlast] at hget
    have hcont : (loopRun sch input).2.contains f = true := by
      simp [StructValidator.contains, hget]
    rw [hcont, hget]
    simp
  | none =>
    rw [hlast] at hget
    have hnone : (loopRun sch input).2.get f = none := by
      rw [hget]; rfl
    have hcont : (loopRun sch input).2.contains f = false := by
      simp [StructValidator.contains, hnone]
    rw [hcont, hnone]
    cases (fieldLastOk d input f).isNone <;> simp

theorem finalSV_get_not_field {α : Type} (sch : List (String × (JVal → Except String α)))
    (input : List (String × JVal)) (g : String)
    (hnd : (namesOf sch).Nodup) (hg : findDec sch g = none) :
    (finalSV sch input).get g = none := by
  have hlen0 : (initSlots (α := α) sch, StructValidator.new).1.length = sch.length := by
    simp [initSlots]
  have hrun : loopRun sch input =
      loopFrom sch (initSlots sch, StructValidator.new) input := rfl
  have hget := loopFrom_get_unknown sch input g hg (initSlots sch, StructValidator.new) hlen0
  rw [← hrun] at hget
  have hsw := sweepSV_get sch (loopRun sch input).1 (loopRun sch input).2 g
    (loopRun_len sch input) hnd
  rw [show finalSV sch input =
    sweepSV sch (loopRun sch input).1 (loopRun sch input).2 from rfl, hsw, hg]
  simp only [Option.isSome_none, Bool.false_and, Bool.false_eq_true, if_false]
  rw [hget]
  rfl

/-! ### Claim theorems for the aggregating decode -/

theorem fieldFails_nil_of_no_key {α : Type} (d : JVal → Except String α)
    (input : List (String × JVal)) (f : String) (h : ∀ kv ∈ input, kv.1 ≠ f) :
    fieldFails d input f = [] := by
  unfold fieldFails
  rw [List.filterMap_eq_nil]
  intro kv hkv
  simp [h kv hkv]

theorem fieldOks_nil_of_no_key {α : Type} (d : JVal → Except String α)
    (input : List (String × JVal)) (f : String) (h : ∀ kv ∈ input, kv.1 ≠ f) :
    fieldOks d input f = [] := by
  unfold fieldOks
  rw [List.filterMap_eq_nil]
  intro kv hkv
  simp [h kv hkv]

theorem fieldFails_ne_nil_of_mem {α : Type} (d : JVal → Except String α)
    (input : List (String × JVal)) (f : String) (v : JVal) (e : String)
    (hv : (f, v) ∈ input) (he : decodeOptVal d v = .error e) :
    fieldFails d input f ≠ [] := by
  intro hnil
  have hm : e ∈ fieldFails d input f := by
    unfold fieldFails
    apply List.mem_filterMap.mpr
    exact ⟨(f, v), hv, by simp [he]⟩
  rw [hnil] at hm
  cases hm

/-- C4: after the input is exhausted, the sweep inserts "field is missing"
for a field only if the collector does not already contain an entry for it
(any entry the sweep adds is for a previously absent key); consequently a
field whose value was present but failed to decode keeps the (truncated)
decode-failure message of its last failing read — the sweep does not touch
it — and never receives the generic message from the sweep. -/
theorem decode_failure_beats_missing {α : Type}
    (sch : List (String × (JVal → Except String α))) (input : List (String × JVal))
    (f : String) (d : JVal → Except String α) (v : JVal)
    (hnd : (namesOf sch).Nodup) (hd : findDec sch f = some d)
    (hv : (f, v) ∈ input) (hfail : ∃ e0, decodeOptVal d v = .error e0) :
    (∃ e, (fieldFails d input f).getLast? = some e ∧
      (finalSV sch input).get f = some (truncStr e) ∧
      (afterLoopSV sch input).get f = some (truncStr e)) ∧
    (∀ g, (finalSV sch input).get g ≠ (afterLoopSV sch input).get g →
      (afterLoopSV sch input).contains g = false ∧
      (finalSV sch input).get g = some "field is missing") := by
  constructor
  · obtain ⟨e0, he0⟩ := hfail
    have hne := fieldFails_ne_nil_of_mem d input f v e0 hv he0
    obtain ⟨e, he⟩ : ∃ e, (fieldFails d input f).getLast? = some e := by
      cases hl : (fieldFails d input f).getLast? with
      | none => exact absurd (List.getLast?_eq_none_iff.mp hl) hne
      | some e => exact ⟨e, rfl⟩
    refine ⟨e, he, ?_, ?_⟩
    · rw [finalSV_get_field sch input f d hnd hd, he]
    · have hget := loopFrom_get sch input f d hd (initSlots sch, StructValidator.new)
        (by simp [initSlots])
      rw [he] at hget
      exact hget
  · intro g hneq
    exact sweepSV_changed sch (loopRun sch input).1 (loopRun sch input).2 g hneq

/-- Witness for C4: a field present with an invalid value keeps the decode
diagnostic, and the other (absent) field is the only one the sweep touched. -/
theorem decode_failure_beats_missing_witness :
    (∃ e, (fieldFails decNum [("a", JVal.str "x"), ("b", JVal.num 1)] "a").getLast? = some e ∧
      (finalSV [("a", decNum), ("b", decNum)]
        [("a", JVal.str "x"), ("b", JVal.num 1)]).get "a" = some (truncStr e) ∧
      (afterLoopSV [("a", decNum), ("b", decNum)]
        [("a", JVal.str "x"), ("b", JVal.num 1)]).get "a" = some (truncStr e)) ∧
    (∀ g, (finalSV [("a", decNum), ("b", decNum)]
        [("a", JVal.str "x"), ("b", JVal.num 1)]).get g ≠
          (afterLoopSV [("a", decNum), ("b", decNum)]
            [("a", JVal.str "x"), ("b", JVal.num 1)]).get g →
      (afterLoopSV [("a", decNum), ("b", decNum)]
        [("a", JVal.str "x"), ("b", JVal.num 1)]).contains g = false ∧
      (finalSV [("a", decNum), ("b", decNum)]
        [("a", JVal.str "x"), ("b", JVal.num 1)]).get g = some "field is missing") :=
  decode_failure_beats_missing [("a", decNum), ("b", decNum)]
    [("a", JVal.str "x"), ("b", JVal.num 1)] "a" decNum (JVal.str "x")
    (by decide) rfl (by decide) ⟨"invalid digit found in string", rfl⟩

theorem loopFrom_filterKnown {α : Type} (sch : List (String × (JVal → Except String α)))
    (input : List (String × JVal)) :
    ∀ st : List (Option α) × StructValidator,
      loopFrom sch st input = loopFrom sch st (filterKnown sch input) := by
  induction input with
  | nil => intro st; rfl
  | cons kv rest ih =>
    intro st
    by_cases hk : kv.1 ∈ namesOf sch
    · have hfk : filterKnown sch (kv :: rest) = kv :: filterKnown sch rest := by
        simp [filterKnown, List.filter_cons, hk]
      rw [hfk]
      exact ih (stepField sch st.1 st.2 kv.1 kv.2)
    · have hfk : filterKnown sch (kv :: rest) = filterKnown sch rest := by
        simp [filterKnown, List.filter_cons, hk]
      rw [hfk]
      have hun : stepField sch st.1 st.2 kv.1 kv.2 = (st.1, st.2) :=
        stepField_unknown sch st.1 st.2 kv.1 kv.2 (findDec_eq_none sch kv.1 hk)
      calc loopFrom sch st (kv :: rest)
          = loopFrom sch (stepField sch st.1 st.2 kv.1 kv.2) rest := rfl
        _ = loopFrom sch (st.1, st.2) rest := by rw [hun]
        _ = loopFrom sch st rest := by rw [Prod.mk.eta]
        _ = loopFrom sch st (filterKnown sch rest) := ih st

theorem decode_filterKnown {α : Type} (sch : List (String × (JVal → Except String α)))
    (input : List (String × JVal)) :
    decodeStruct sch input = decodeStruct sch (filterKnown sch input) := by
  have h1 : loopRun sch input = loopRun sch (filterKnown sch input) :=
    loopFrom_filterKnown sch input (initSlots sch, StructValidator.new)
  rw [decodeStruct_eq, decodeStruct_eq,
    show finalSV sch input =
      sweepSV sch (loopRun sch input).1 (loopRun sch input).2 from rfl,
    show finalSV sch (filterKnown sch input) =
      sweepSV sch (loopRun sch (filterKnown sch input)).1
        (loopRun sch (filterKnown sch input)).2 from rfl,
    h1]

/-- C5: unknown keys are consumed and discarded without any effect: decoding
any input gives exactly the result of decoding the same input with every
unrecognized key removed, so an input whose declared fields all decode (plus
any extra keys) succeeds with the same record. -/
theorem decode_unknown_keys_ignored {α : Type}
    (sch : List (String × (JVal → Except String α))) (input : List (String × JVal))
    (r : List α) (h : decodeStruct sch (filterKnown sch input) = .ok r) :
    decodeStruct sch input = .ok r := by
  rw [decode_filterKnown]
  exact h

/-- Witness for C5 with one extra unrecognized key. -/
theorem decode_unknown_keys_ignored_witness :
    decodeStruct [("x", decNum)]
      (filterKnown [("x", decNum)] [("x", JVal.num 1), ("junk", JVal.str "z")]) =
        .ok [(1 : Int)] ∧
    decodeStruct [("x", decNum)] [("x", JVal.num 1), ("junk", JVal.str "z")] =
      .ok [(1 : Int)] :=
  ⟨by decide, decode_unknown_keys_ignored [("x", decNum)]
    [("x", JVal.num 1), ("junk", JVal.str "z")] [(1 : Int)] (by decide)⟩

/-- C6: if the collector is non-empty after the missing-field sweep, the
decode fails with exactly one failure event whose payload is the collector's
JSON serialization carried as the single error message; otherwise this step
does not fail and the decode returns a record. -/
theorem decode_single_failure_event {α : Type}
    (sch : List (String × (JVal → Except String α))) (input : List (String × JVal)) :
    ((finalSV sch input).is_empty = false →
      decodeStruct sch input = .error (finalSV sch input).to_json_string) ∧
    ((finalSV sch input).is_empty = true → ∃ r : List α, decodeStruct sch input = .ok r) :=
  ⟨decode_error_of_not_empty sch input, decode_ok_of_empty sch input⟩

/-- Witness for C6 at an input leaving the collector non-empty. -/
theorem decode_single_failure_event_witness :
    (finalSV [("x", decNum)] ([] : List (String × JVal))).is_empty = false ∧
    decodeStruct [("x", decNum)] [] =
      .error (finalSV [("x", decNum)] ([] : List (String × JVal))).to_json_string :=
  ⟨by decide, (decode_single_failure_event [("x", decNum)] []).1 (by decide)⟩

/-- C7: an input missing two declared fields whose one further field holds a
value that fails to decode — every other declared field decoding fine —
fails with a collector holding exactly three keys: the two missing field
identifiers mapped to "field is missing" and the invalid field's identifier
mapped to its (truncated) decode-failure message, and no other keys. -/
theorem decode_aggregates_exactly_three {α : Type}
    (sch : List (String × (JVal → Except String α))) (input : List (String × JVal))
    (m1 m2 b : String) (d1 d2 db : JVal → Except String α) (eb : String)
    (hnd : (namesOf sch).Nodup)
    (h1 : findDec sch m1 = some d1) (h2 : findDec sch m2 = some d2)
    (hb : findDec sch b = some db)
    (hm1 : ∀ kv ∈ input, kv.1 ≠ m1) (hm2 : ∀ kv ∈ input, kv.1 ≠ m2)
    (hbm1 : b ≠ m1) (hbm2 : b ≠ m2)
    (hbf : (fieldFails db input b).getLast? = some eb)
    (hothers : ∀ p ∈ sch, p.1 ≠ m1 → p.1 ≠ m2 → p.1 ≠ b →
      fieldFails p.2 input p.1 = [] ∧ (fieldLastOk p.2 input p.1).isSome = true) :
    (finalSV sch input).get m1 = some "field is missing" ∧
    (finalSV sch input).get m2 = some "field is missing" ∧
    (finalSV sch input).get b = some (truncStr eb) ∧
    (∀ k, (finalSV sch input).contains k = true → k = m1 ∨ k = m2 ∨ k = b) ∧
    decodeStruct sch input = .error (finalSV sch input).to_json_string := by
  have hmiss : ∀ (m : String) (dm : JVal → Except String α), findDec sch m = some dm →
      (∀ kv ∈ input, kv.1 ≠ m) → (finalSV sch input).get m = some "field is missing" := by
    intro m dm hdm hno
    rw [finalSV_get_field sch input m dm hnd hdm,
      fieldFails_nil_of_no_key dm input m hno]
    have hlast : fieldLastOk dm input m = none := by
      unfold fieldLastOk
      rw [fieldOks_nil_of_no_key dm input m hno]
      rfl
    simp [hlast]
  have hg1 := hmiss m1 d1 h1 hm1
  have hg2 := hmiss m2 d2 h2 hm2
  have hgb : (finalSV sch input).get b = some (truncStr eb) := by
    rw [finalSV_get_field sch input b db hnd hb, hbf]
  refine ⟨hg1, hg2, hgb, ?_, ?_⟩
  · intro k hk
    by_cases e1 : k = m1
    · exact Or.inl e1
    by_cases e2 : k = m2
    · exact Or.inr (Or.inl e2)
    by_cases e3 : k = b
    · exact Or.inr (Or.inr e3)
    exfalso
    cases hfd : findDec sch k with
    | none =>
      have hnone := finalSV_get_not_field sch input k hnd hfd
      rw [StructValidator.contains, hnone] at hk
      cases hk
    | some dk =>
      have hmem := findDec_some_mem sch k dk hfd
      obtain ⟨hff, hlo⟩ := hothers (k, dk) hmem e1 e2 e3
      have hnone : (finalSV sch input).get k = none := by
        rw [finalSV_get_field sch input k dk hnd hfd, hff]
        have : (fieldLastOk dk input k).isNone = false := by
          cases ho : fieldLastOk dk input k with
          | none => rw [ho] at hlo; cases hlo
          | some _ => rfl
        simp [this]
      rw [StructValidator.contains, hnone] at hk
      cases hk
  · exact decode_error_of_not_empty sch input
      (is_empty_false_of_get (finalSV sch input) m1 "field is missing" hg1)

/-- Witness for C7: schema x, y, z, w; x and y absent, z invalid, w valid. -/
theorem decode_aggregates_exactly_three_witness :
    (finalSV [("x", decNum), ("y", decNum), ("z", decNum), ("w", decNum)]
      [("z", JVal.str "q"), ("w", JVal.num 5)]).get "x" = some "field is missing" ∧
    (finalSV [("x", decNum), ("y", decNum), ("z", decNum), ("w", decNum)]
      [("z", JVal.str "q"), ("w", JVal.num 5)]).get "y" = some "field is missing" ∧
    (finalSV [("x", decNum), ("y", decNum), ("z", decNum), ("w", decNum)]
      [("z", JVal.str "q"), ("w", JVal.num 5)]).get "z" =
        some (truncStr "invalid digit found in string") ∧
    (∀ k, (finalSV [("x", decNum), ("y", decNum), ("z", decNum), ("w", decNum)]
      [("z", JVal.str "q"), ("w", JVal.num 5)]).contains k = true →
        k = "x" ∨ k = "y" ∨ k = "z") ∧
    decodeStruct [("x", decNum), ("y", decNum), ("z", decNum), ("w", decNum)]
      [("z", JVal.str "q"), ("w", JVal.num 5)] =
        .error (finalSV [("x", decNum), ("y", decNum), ("z", decNum), ("w", decNum)]
          [("z", JVal.str "q"), ("w", JVal.num 5)]).to_json_string :=
  decode_aggregates_exactly_three
    [("x", decNum), ("y", decNum), ("z", decNum), ("w", decNum)]
    [("z", JVal.str "q"), ("w", JVal.num 5)]
    "x" "y" "z" decNum decNum decNum "invalid digit found in string"
    (by decide) rfl rfl rfl (by decide) (by decide) (by decide) (by decide)
    (by decide) (by decide)

/-- C9: a declared field present in the input with a JSON null value leaves
its slot empty without a decode-failure entry (values are read as optional
values and null reads as absent), so when every read of that field is null
the decode fails with the generic "field is missing" message for it. -/
theorem null_field_value_counts_as_missing {α : Type}
    (sch : List (String × (JVal → Except String α))) (input : List (String × JVal))
    (f : String) (d : JVal → Except String α)
    (hnd : (namesOf sch).Nodup) (hd : findDec sch f = some d)
    (hmem : (f, JVal.null) ∈ input)
    (hnull : ∀ kv ∈ input, kv.1 = f → kv.2 = JVal.null) :
    (finalSV sch input).get f = some "field is missing" ∧
    decodeStruct sch input = .error (finalSV sch input).to_json_string := by
  have hff : fieldFails d input f = [] := by
    unfold fieldFails
    rw [List.filterMap_eq_nil]
    intro kv hkv
    by_cases hk : kv.1 = f
    · have hn := hnull kv hkv hk
      simp [hk, hn, decodeOptVal]
    · simp [hk]
  have hoks : ∀ x ∈ fieldOks d input f, x = none := by
    intro x hx
    unfold fieldOks at hx
    obtain ⟨kv, hkv, hfx⟩ := List.mem_filterMap.mp hx
    by_cases hk : kv.1 = f
    · have hn := hnull kv hkv hk
      rw [hk, hn] at hfx
      simp [decodeOptVal] at hfx
      exact hfx.symm
    · simp [hk] at hfx
  have hlast : fieldLastOk d input f = none := by
    unfold fieldLastOk
    cases hgl : (fieldOks d input f).getLast? with
    | none => rfl
    | some x =>
      have hxmem : x ∈ fieldOks d input f := by
        obtain ⟨hne, hxe⟩ := List.mem_getLast?_eq_getLast
          (l := fieldOks d input f) (x := x) (by rw [hgl]; rfl)
        rw [hxe]
        exact List.getLast_mem hne
      simp [hoks x hxmem]
  have hget : (finalSV sch input).get f = some "field is missing" := by
    rw [finalSV_get_field sch input f d hnd hd, hff]
    simp [hlast]
  exact ⟨hget, decode_error_of_not_empty sch input
    (is_empty_false_of_get (finalSV sch input) f "field is missing" hget)⟩

/-- Witness for C9 at a one-field schema whose field is supplied as null. -/
theorem null_field_value_counts_as_missing_witness :
    (finalSV [("x", decNum)] [("x", JVal.null)]).get "x" = some "field is missing" ∧
    decodeStruct [("x", decNum)] [("x", JVal.null)] =
      .error (finalSV [("x", decNum)] [("x", JVal.null)]).to_json_string :=
  null_field_value_counts_as_missing [("x", decNum)] [("x", JVal.null)] "x" decNum
    (by decide) rfl (by decide) (by decide)

/-! ### C3 machinery: the needle does not occur in a clean serialization -/

theorem occursN_cons (c : Char) (l : List Char) :
    OccursN (c :: l) ↔ (∃ t, c :: l = needleChars ++ t) ∨ OccursN l := by
  constructor
  · rintro ⟨a, b, hab⟩
    cases a with
    | nil => exact Or.inl ⟨b, by simpa using hab⟩
    | cons x a' =>
      right
      refine ⟨a', b, ?_⟩
      simp only [List.cons_append] at hab
      exact ((List.cons.injEq _ _ _ _).mp hab).2
  · rintro (⟨t, ht⟩ | ⟨a, b, hab⟩)
    · exact ⟨[], t, by simpa using ht⟩
    · exact ⟨c :: a, b, by rw [hab]; rfl⟩

theorem needle_starts_space : ∃ t, needleChars = ' ' :: t := ⟨"at line".data, by decide⟩

theorem no_needle_start (c : Char) (l : List Char) (hc : c ≠ ' ') :
    ¬∃ t, c :: l = needleChars ++ t := by
  rintro ⟨t, ht⟩
  obtain ⟨nt, hnt⟩ := needle_starts_space
  rw [hnt] at ht
  injection ht with h1 _
  exact hc h1

theorem noOccur_cons (c : Char) (l : List Char) (hc : c ≠ ' ')
    (h : ¬OccursN l) : ¬OccursN (c :: l) := by
  intro hocc
  rcases (occursN_cons c l).mp hocc with hstart | htail
  · exact no_needle_start c l hc hstart
  · exact h htail

theorem needle_no_quote : '"' ∉ needleChars := by decide

theorem needle_through_quote :
    ∀ (a : List Char) (b t : List Char), needleChars ++ t = a ++ '"' :: b →
      ∃ t', a = needleChars ++ t' := by
  have : ∀ (n : List Char), '"' ∉ n → ∀ (a b t : List Char), n ++ t = a ++ '"' :: b →
      ∃ t', a = n ++ t' := by
    intro n hn
    induction n with
    | nil => intro a b t _; exact ⟨a, rfl⟩
    | cons x n' ih =>
      intro a b t hab
      cases a with
      | nil =>
        simp only [List.nil_append, List.cons_append] at hab
        injection hab with h1 _
        exact absurd (h1 ▸ List.mem_cons_self x n') (by simpa [h1] using hn)
      | cons y a' =>
        simp only [List.cons_append] at hab
        injection hab with h1 h2
        obtain ⟨t', ht'⟩ := ih (fun hm => hn (List.mem_cons_of_mem x hm)) a' b t h2
        exact ⟨t', by rw [List.cons_append, ← h1, ht']⟩
  exact fun a b t h => this needleChars needle_no_quote a b t h

theorem occursN_split_quote (a b : List Char) :
    OccursN (a ++ '"' :: b) → OccursN a ∨ OccursN b := by
  induction a with
  | nil =>
    intro h
    rcases (occursN_cons '"' b).mp h with hstart | htail
    · exact absurd hstart (no_needle_start '"' b (by decide))
    · exact Or.inr htail
  | cons c a' ih =>
    intro h
    rcases (occursN_cons c (a' ++ '"' :: b)).mp h with ⟨t, ht⟩ | htail
    · left
      obtain ⟨t', ht'⟩ := needle_through_quote (c :: a') b t ht.symm
      exact ⟨[], t', by simpa using ht'⟩
    · rcases ih htail with ha | hb
      · left
        obtain ⟨x, y, hxy⟩ := ha
        exact ⟨c :: x, y, by rw [hxy]; rfl⟩
      · exact Or.inr hb

theorem noOccur_append_quote (a b : List Char) (ha : ¬OccursN a) (hb : ¬OccursN b) :
    ¬OccursN (a ++ '"' :: b) := fun h => (occursN_split_quote a b h).elim ha hb

theorem digit_lt16_ne_space : ∀ k, k < 16 → Nat.digitChar k ≠ ' ' := by decide

theorem needle_chars_plain : ∀ c ∈ needleChars, escChar c = [c] := by decide

theorem escChar_head_bs (c : Char) (h : escChar c ≠ [c]) :
    ∃ rest, escChar c = '\\' :: rest := by
  by_cases h1 : c = '"'
  · exact ⟨['"'], by rw [h1]; decide⟩
  by_cases h2 : c = '\\'
  · exact ⟨['\\'], by rw [h2]; decide⟩
  by_cases h3 : c = '\x08'
  · exact ⟨['b'], by rw [h3]; decide⟩
  by_cases h4 : c = '\t'
  · exact ⟨['t'], by rw [h4]; decide⟩
  by_cases h5 : c = '\n'
  · exact ⟨['n'], by rw [h5]; decide⟩
  by_cases h6 : c = '\x0C'
  · exact ⟨['f'], by rw [h6]; decide⟩
  by_cases h7 : c = '\r'
  · exact ⟨['r'], by rw [h7]; decide⟩
  by_cases h8 : c.toNat < 32
  · refine ⟨['u', '0', '0', hexDigitChar (c.toNat / 16), hexDigitChar (c.toNat % 16)], ?_⟩
    unfold escChar
    rw [if_neg h1, if_neg h2, if_neg h3, if_neg h4, if_neg h5, if_neg h6, if_neg h7, if_pos h8]
  · exfalso
    apply h
    unfold escChar
    rw [if_neg h1, if_neg h2, if_neg h3, if_neg h4, if_neg h5, if_neg h6, if_neg h7, if_neg h8]

theorem escChar_no_space (c : Char) (hc : c ≠ ' ') : ' ' ∉ escChar c := by
  by_cases h1 : c = '"'
  · rw [h1]; decide
  by_cases h2 : c = '\\'
  · rw [h2]; decide
  by_cases h3 : c = '\x08'
  · rw [h3]; decide
  by_cases h4 : c = '\t'
  · rw [h4]; decide
  by_cases h5 : c = '\n'
  · rw [h5]; decide
  by_cases h6 : c = '\x0C'
  · rw [h6]; decide
  by_cases h7 : c = '\r'
  · rw [h7]; decide
  by_cases h8 : c.toNat < 32
  · unfold escChar
    rw [if_neg h1, if_neg h2, if_neg h3, if_neg h4, if_neg h5, if_neg h6, if_neg h7, if_pos h8]
    intro hmem
    simp only [List.mem_cons, List.not_mem_nil, or_false] at hmem
    rcases hmem with h | h | h | h | h | h
    · exact absurd h (by decide)
    · exact absurd h (by decide)
    · exact absurd h (by decide)
    · exact absurd h (by decide)
    · exact digit_lt16_ne_space (c.toNat / 16) (by omega) h.symm
    · exact digit_lt16_ne_space (c.toNat % 16) (by omega) h.symm
  · unfold escChar
    rw [if_neg h1, if_neg h2, if_neg h3, if_neg h4, if_neg h5, if_neg h6, if_neg h7, if_neg h8]
    intro hmem
    simp only [List.mem_singleton] at hmem
    exact hc hmem.symm

theorem prefix_escList (m : List Char) (hm : ∀ c ∈ m, escChar c = [c]) :
    ∀ (l t : List Char), escList l = m ++ t → ∃ t', l = m ++ t' := by
  induction m with
  | nil => intro l t _; exact ⟨l, rfl⟩
  | cons x m' ih =>
    intro l t hl
    cases l with
    | nil => simp [escList] at hl
    | cons d l' =>
      rw [escList] at hl
      by_cases hd : escChar d = [d]
      · rw [hd, List.singleton_append, List.cons_append] at hl
        obtain ⟨h1, h2⟩ := (List.cons.injEq _ _ _ _).mp hl
        obtain ⟨t', ht'⟩ := ih (fun c hc => hm c (List.mem_cons_of_mem x hc)) l' t h2
        exact ⟨t', by rw [List.cons_append, h1, ht']⟩
      · obtain ⟨rest, hrest⟩ := escChar_head_bs d hd
        rw [hrest, List.cons_append, List.cons_append] at hl
        obtain ⟨h1, _⟩ := (List.cons.injEq _ _ _ _).mp hl
        have hx : escChar x = [x] := hm x (List.mem_cons_self x m')
        rw [← h1] at hx
        exact absurd hx (by decide)

theorem occursN_append_elim (a : List Char) :
    ∀ b, OccursN (a ++ b) →
      (∀ s u, a = u ++ s → s ≠ [] → ¬∃ t, s ++ b = needleChars ++ t) →
      OccursN b := by
  induction a with
  | nil => intro b h _; simpa using h
  | cons c a' ih =>
    intro b h hs
    rw [List.cons_append] at h
    rcases (occursN_cons c (a' ++ b)).mp h with hstart | htail
    · exact absurd (by simpa [List.cons_append] using hstart)
        (hs (c :: a') [] rfl (by simp))
    · refine ih b htail (fun s u hsu hne => hs s (c :: u) ?_ hne)
      rw [List.cons_append, hsu]

theorem occursN_escList (l : List Char) : OccursN (escList l) → OccursN l := by
  induction l with
  | nil =>
    rintro ⟨a, b, hab⟩
    rw [show (escList [] : List Char) = [] from rfl] at hab
    have h0 := congrArg List.length hab
    have h8 : needleChars.length = 8 := rfl
    simp only [List.length_nil, List.length_append, h8] at h0
    omega
  | cons c l' ih =>
    intro h
    rw [escList] at h
    by_cases hc : escChar c = [c]
    · rw [hc, List.singleton_append] at h
      rcases (occursN_cons c (escList l')).mp h with ⟨t, ht⟩ | htail
      · have hfull : escList (c :: l') = needleChars ++ t := by
          rw [escList, hc, List.singleton_append]
          exact ht
        obtain ⟨t', ht'⟩ := prefix_escList needleChars needle_chars_plain (c :: l') t hfull
        exact ⟨[], t', by simpa using ht'⟩
      · exact (occursN_cons c l').mpr (Or.inr (ih htail))
    · have hcne : c ≠ ' ' := fun he => hc (by rw [he]; decide)
      have hsp : ' ' ∉ escChar c := escChar_no_space c hcne
      have hb : OccursN (escList l') := by
        refine occursN_append_elim (escChar c) (escList l') h ?_
        rintro s u hsu hne ⟨t, ht⟩
        cases s with
        | nil => exact hne rfl
        | cons s0 s1 =>
          obtain ⟨nt, hnt⟩ := needle_starts_space
          rw [hnt, List.cons_append, List.cons_append] at ht
          obtain ⟨h1, _⟩ := (List.cons.injEq _ _ _ _).mp ht
          apply hsp
          rw [hsu, ← h1]
          exact List.mem_append_right u (List.mem_cons_self _ _)
      exact (occursN_cons c l').mpr (Or.inr (ih hb))

theorem noOccur_esc (l : List Char) (h : ¬OccursN l) : ¬OccursN (escList l) :=
  fun hocc => h (occursN_escList l hocc)

theorem noOccur_short (l : List Char) (h : l.length < 8) : ¬OccursN l := by
  rintro ⟨a, b, hab⟩
  have h0 := congrArg List.length hab
  have h8 : needleChars.length = 8 := rfl
  simp only [List.length_append, h8] at h0
  omega

theorem entry_append (p : String × String) (X : List Char) :
    entryChars p ++ X =
      '"' :: (escList p.1.data ++ ('"' :: ':' :: '"' :: (escList p.2.data ++ ('"' :: X)))) := by
  simp [entryChars, List.append_assoc, List.cons_append]

theorem noOccur_entry_append (p : String × String) (X : List Char)
    (hk : ¬OccursN p.1.data) (hv : ¬OccursN p.2.data) (hX : ¬OccursN X) :
    ¬OccursN (entryChars p ++ X) := by
  rw [entry_append]
  apply noOccur_cons '"' _ (by decide)
  apply noOccur_append_quote
  · exact noOccur_esc _ hk
  · apply noOccur_cons ':' _ (by decide)
    apply noOccur_cons '"' _ (by decide)
    exact noOccur_append_quote _ _ (noOccur_esc _ hv) hX

theorem noOccur_entries (pairs : List (String × String)) :
    ∀ t : List Char,
      (∀ p ∈ pairs, ¬OccursN p.1.data ∧ ¬OccursN p.2.data) → ¬OccursN t →
      ¬OccursN (entriesChars pairs ++ t) := by
  induction pairs with
  | nil =>
    intro t _ ht
    simpa [entriesChars]
  | cons p rest ih =>
    intro t hp ht
    have hhd := hp p (List.mem_cons_self p rest)
    cases rest with
    | nil =>
      rw [show entriesChars [p] = entryChars p from rfl]
      exact noOccur_entry_append p t hhd.1 hhd.2 ht
    | cons q l =>
      have hshape : entriesChars (p :: q :: l) ++ t =
          entryChars p ++ (',' :: (entriesChars (q :: l) ++ t)) := by
        rw [show entriesChars (p :: q :: l) =
          entryChars p ++ ',' :: entriesChars (q :: l) from rfl]
        simp [List.append_assoc, List.cons_append]
      rw [hshape]
      refine noOccur_entry_append p _ hhd.1 hhd.2 ?_
      refine noOccur_cons ',' _ (by decide) ?_
      exact ih t (fun x hx => hp x (List.mem_cons_of_mem p hx)) ht

theorem noOccur_serializeChars (sv : StructValidator)
    (hk : ∀ p ∈ sv.errors, ¬OccursN p.1.data)
    (hv : ∀ p ∈ sv.errors, ¬OccursN p.2.data) :
    ¬OccursN (serializeChars sv) := by
  have hshape : serializeChars sv =
      '{' :: '"' :: ("errors".data ++
        '"' :: ':' :: '{' :: (entriesChars sv.errors ++ ['}', '}'])) := by
    simp [serializeChars, innerObjChars, List.append_assoc, List.cons_append]
  rw [hshape]
  apply noOccur_cons '{' _ (by decide)
  apply noOccur_cons '"' _ (by decide)
  apply noOccur_append_quote
  · exact (hasNeedle_false_iff "errors").mp (by decide)
  · apply noOccur_cons ':' _ (by decide)
    apply noOccur_cons '{' _ (by decide)
    refine noOccur_entries sv.errors ['}', '}'] (fun p hp => ⟨hk p hp, hv p hp⟩) ?_
    exact noOccur_short _ (by decide)

theorem rfindNeedle_none_of_noOccur (l : List Char) (h : ¬OccursN l) :
    rfindNeedle l = none := by
  rw [rfindNeedle, rfindFrom_none]
  intro k _
  cases hck : occursAtB l k with
  | false => rfl
  | true => exact absurd ((OccursN_iff l).mpr ⟨k, hck⟩) h

theorem truncChars_id_of_noOccur (l : List Char) (h : ¬OccursN l) :
    truncChars l = l := by
  rw [truncChars, rfindNeedle_none_of_noOccur l h]

/-! ### C3 machinery: the parser inverts the serializer -/

theorem strGo_quote (acc r : List Char) :
    strGo acc ('"' :: r) = .ok (String.mk acc.reverse, r) := by
  rw [strGo.eq_def]; simp

theorem strGo_esc_quote (acc r : List Char) :
    strGo acc ('\\' :: '"' :: r) = strGo ('"' :: acc) r := by
  rw [strGo.eq_def]; simp

theorem strGo_esc_bs (acc r : List Char) :
    strGo acc ('\\' :: '\\' :: r) = strGo ('\\' :: acc) r := by
  rw [strGo.eq_def]; simp

theorem strGo_esc_b (acc r : List Char) :
    strGo acc ('\\' :: 'b' :: r) = strGo ('\x08' :: acc) r := by
  rw [strGo.eq_def]; simp

theorem strGo_esc_t (acc r : List Char) :
    strGo acc ('\\' :: 't' :: r) = strGo ('\t' :: acc) r := by
  rw [strGo.eq_def]; simp

theorem strGo_esc_n (acc r : List Char) :
    strGo acc ('\\' :: 'n' :: r) = strGo ('\n' :: acc) r := by
  rw [strGo.eq_def]; simp

theorem strGo_esc_f (acc r : List Char) :
    strGo acc ('\\' :: 'f' :: r) = strGo ('\x0C' :: acc) r := by
  rw [strGo.eq_def]; simp

theorem strGo_esc_r (acc r : List Char) :
    strGo acc ('\\' :: 'r' :: r) = strGo ('\r' :: acc) r := by
  rw [strGo.eq_def]; simp

theorem strGo_plain (acc r : List Char) (c : Char)
    (h1 : c ≠ '"') (h2 : c ≠ '\\') (h3 : ¬ c.toNat < 32) :
    strGo acc (c :: r) = strGo (c :: acc) r := by
  rw [strGo.eq_def]; simp [h1, h2, h3]

theorem hexVal?_digitChar : ∀ k, k < 16 → hexVal? (Nat.digitChar k) = some k := by decide

theorem strGo_u00 (acc r : List Char) (n : Nat) (hn : n < 32) :
    strGo acc ('\\' :: 'u' :: '0' :: '0' :: hexDigitChar (n / 16) :: hexDigitChar (n % 16) :: r) =
      strGo (Char.ofNat n :: acc) r := by
  have hv0 : hexVal? '0' = some 0 := by decide
  have hv1 : hexVal? (hexDigitChar (n / 16)) = some (n / 16) :=
    hexVal?_digitChar _ (by omega)
  have hv2 : hexVal? (hexDigitChar (n % 16)) = some (n % 16) :=
    hexVal?_digitChar _ (by omega)
  have harith : n / 16 * 16 + n % 16 = n := by omega
  have hlt : n < 55296 := by omega
  rw [strGo.eq_def]
  simp [hv0, hv1, hv2, harith, hlt]

theorem strGo_escList (s : List Char) :
    ∀ (acc rest : List Char),
      strGo acc (escList s ++ '"' :: rest) = .ok (String.mk (acc.reverse ++ s), rest) := by
  induction s with
  | nil =>
    intro acc rest
    rw [show (escList [] : List Char) = [] from rfl, List.nil_append, strGo_quote]
    simp
  | cons c s' ih =>
    intro acc rest
    rw [show escList (c :: s') = escChar c ++ escList s' from rfl, List.append_assoc]
    by_cases h1 : c = '"'
    · subst h1
      rw [show escChar '"' = ['\\', '"'] from by decide, List.cons_append, List.cons_append,
        List.nil_append, strGo_esc_quote, ih]
      simp
    by_cases h2 : c = '\\'
    · subst h2
      rw [show escChar '\\' = ['\\', '\\'] from by decide, List.cons_append, List.cons_append,
        List.nil_append, strGo_esc_bs, ih]
      simp
    by_cases h3 : c = '\x08'
    · subst h3
      rw [show escChar '\x08' = ['\\', 'b'] from by decide, List.cons_append, List.cons_append,
        List.nil_append, strGo_esc_b, ih]
      simp
    by_cases h4 : c = '\t'
    · subst h4
      rw [show escChar '\t' = ['\\', 't'] from by decide, List.cons_append, List.cons_append,
        List.nil_append, strGo_esc_t, ih]
      simp
    by_cases h5 : c = '\n'
    · subst h5
      rw [show escChar '\n' = ['\\', 'n'] from by decide, List.cons_append, List.cons_append,
        List.nil_append, strGo_esc_n, ih]
      simp
    by_cases h6 : c = '\x0C'
    · subst h6
      rw [show escChar '\x0C' = ['\\', 'f'] from by decide, List.cons_append, List.cons_append,
        List.nil_append, strGo_esc_f, ih]
      simp
    by_cases h7 : c = '\r'
    · subst h7
      rw [show escChar '\r' = ['\\', 'r'] from by decide, List.cons_append, List.cons_append,
        List.nil_append, strGo_esc_r, ih]
      simp
    by_cases h8 : c.toNat < 32
    · have hesc : escChar c =
          ['\\', 'u', '0', '0', hexDigitChar (c.toNat / 16), hexDigitChar (c.toNat % 16)] := by
        unfold escChar
        rw [if_neg h1, if_neg h2, if_neg h3, if_neg h4, if_neg h5, if_neg h6, if_neg h7,
          if_pos h8]
      rw [hesc]
      rw [show (['\\', 'u', '0', '0', hexDigitChar (c.toNat / 16),
        hexDigitChar (c.toNat % 16)] : List Char) ++ (escList s' ++ '"' :: rest) =
        '\\' :: 'u' :: '0' :: '0' :: hexDigitChar (c.toNat / 16) ::
          hexDigitChar (c.toNat % 16) :: (escList s' ++ '"' :: rest) from rfl]
      rw [strGo_u00 _ _ _ h8, Char.ofNat_toNat, ih]
      simp
    · have hesc : escChar c = [c] := by
        unfold escChar
        rw [if_neg h1, if_neg h2, if_neg h3, if_neg h4, if_neg h5, if_neg h6, if_neg h7,
          if_neg h8]
      rw [hesc, List.singleton_append, strGo_plain acc _ c h1 h2 h8, ih]
      simp

theorem parseStrLit_string (k : String) (rest : List Char) :
    parseStrLit ('"' :: (escList k.data ++ '"' :: rest)) = .ok (k, rest) := by
  have h : parseStrLit ('"' :: (escList k.data ++ '"' :: rest)) =
      strGo [] (escList k.data ++ '"' :: rest) := rfl
  rw [h, strGo_escList]
  rfl

theorem skipWs_cons (c : Char) (l : List Char) (h : isWsChar c = false) :
    skipWs (c :: l) = c :: l := by simp [skipWs, h]

theorem entry_shape (p : String × String) (X : List Char) :
    entryChars p ++ X =
      '"' :: (escList p.1.data ++ '"' :: ':' :: '"' :: (escList p.2.data ++ '"' :: X)) := by
  simp [entryChars, List.append_assoc, List.cons_append]

theorem skipWs_entries (q : String × String) (l : List (String × String)) (X : List Char) :
    skipWs (entriesChars (q :: l) ++ X) = entriesChars (q :: l) ++ X := by
  cases l with
  | nil =>
    rw [show entriesChars [q] = entryChars q from rfl, entry_shape]
    exact skipWs_cons '"' _ (by decide)
  | cons w l' =>
    rw [show entriesChars (q :: w :: l') = entryChars q ++ ',' :: entriesChars (w :: l') from rfl,
      List.append_assoc, entry_shape]
    exact skipWs_cons '"' _ (by decide)

theorem parseMapBody_succ (f : Nat) (acc : List (String × String)) (l : List Char) :
    parseMapBody (f + 1) acc l =
      match parseStrLit l with
      | .error e => .error e
      | .ok (k, r1) =>
        match skipWs r1 with
        | ':' :: r2 =>
          match parseStrLit (skipWs r2) with
          | .error e => .error e
          | .ok (v, r3) =>
            match skipWs r3 with
            | ',' :: r4 => parseMapBody f (mapInsert acc k v) (skipWs r4)
            | '}' :: r4 => .ok (mapInsert acc k v, r4)
            | _ => .error "expected comma or brace"
        | _ => .error "expected colon"
      := rfl

theorem parseMapBody_rt (pairs : List (String × String)) :
    ∀ (fuel : Nat) (acc : List (String × String)) (rest : List Char),
      pairs ≠ [] → pairs.length < fuel →
      parseMapBody fuel acc (entriesChars pairs ++ '}' :: rest) =
        .ok (pairs.foldl (fun m p => mapInsert m p.1 p.2) acc, rest) := by
  induction pairs with
  | nil => intro fuel acc rest hne _; exact absurd rfl hne
  | cons p rest' ih =>
    intro fuel acc rest _ hfuel
    cases fuel with
    | zero => simp at hfuel
    | succ f =>
      have s1 : ∀ t : List Char, skipWs (':' :: t) = ':' :: t :=
        fun t => skipWs_cons ':' t rfl
      have s2 : ∀ t : List Char, skipWs ('"' :: t) = '"' :: t :=
        fun t => skipWs_cons '"' t rfl
      have s3 : ∀ t : List Char, skipWs ('}' :: t) = '}' :: t :=
        fun t => skipWs_cons '}' t rfl
      have s4 : ∀ t : List Char, skipWs (',' :: t) = ',' :: t :=
        fun t => skipWs_cons ',' t rfl
      cases rest' with
      | nil =>
        rw [show entriesChars [p] = entryChars p from rfl, entry_shape]
        simp only [parseMapBody_succ, parseStrLit_string, s1, s2, s3]
        rfl
      | cons q l =>
        rw [show entriesChars (p :: q :: l) =
          entryChars p ++ ',' :: entriesChars (q :: l) from rfl, List.append_assoc,
          List.cons_append, entry_shape]
        simp only [parseMapBody_succ, parseStrLit_string, s1, s2, s3, s4, skipWs_entries]
        rw [ih f (mapInsert acc p.1 p.2) rest (by simp) (by simp at hfuel ⊢; omega)]
        rfl

theorem parseStrMap_def (fuel : Nat) (l : List Char) :
    parseStrMap fuel l =
      match skipWs l with
      | '{' :: r =>
        match skipWs r with
        | '}' :: r2 => .ok ([], r2)
        | _ => parseMapBody fuel [] (skipWs r)
      | _ => .error "expected map" := rfl

theorem parseStrMap_rt (pairs : List (String × String)) (fuel : Nat) (rest : List Char)
    (hfuel : pairs.length < fuel) :
    parseStrMap fuel (innerObjChars pairs ++ rest) =
      .ok (pairs.foldl (fun m p => mapInsert m p.1 p.2) [], rest) := by
  have hshape : innerObjChars pairs ++ rest = '{' :: (entriesChars pairs ++ '}' :: rest) := by
    simp [innerObjChars, List.append_assoc, List.cons_append]
  rw [hshape, parseStrMap_def, skipWs_cons '{' _ rfl]
  cases pairs with
  | nil =>
    show (match skipWs (entriesChars [] ++ '}' :: rest) with
      | '}' :: r2 => (Except.ok ([], r2) : Except String (List (String × String) × List Char))
      | _ => parseMapBody fuel [] (skipWs (entriesChars [] ++ '}' :: rest))) =
      Except.ok (List.foldl (fun m p => mapInsert m p.1 p.2) []
        ([] : List (String × String)), rest)
    rw [show (entriesChars [] : List Char) = [] from rfl, List.nil_append,
      skipWs_cons '}' _ rfl]
    rfl
  | cons p ps =>
    obtain ⟨Y, hform⟩ : ∃ Y, entriesChars (p :: ps) ++ '}' :: rest = '"' :: Y := by
      cases ps with
      | nil =>
        exact ⟨_, by rw [show entriesChars [p] = entryChars p from rfl, entry_shape]⟩
      | cons q l =>
        exact ⟨_, by rw [show entriesChars (p :: q :: l) =
          entryChars p ++ ',' :: entriesChars (q :: l) from rfl, List.append_assoc,
          entry_shape]⟩
    show (match skipWs (entriesChars (p :: ps) ++ '}' :: rest) with
      | '}' :: r2 => (Except.ok ([], r2) : Except String (List (String × String) × List Char))
      | _ => parseMapBody fuel [] (skipWs (entriesChars (p :: ps) ++ '}' :: rest))) =
      Except.ok (List.foldl (fun m p => mapInsert m p.1 p.2) [] (p :: ps), rest)
    rw [skipWs_entries, hform]
    rw [show (match ('"' :: Y : List Char) with
      | '}' :: r2 => (.ok ([], r2) : Except String (List (String × String) × List Char))
      | _ => parseMapBody fuel [] ('"' :: Y)) = parseMapBody fuel [] ('"' :: Y) from rfl]
    rw [← hform]
    exact parseMapBody_rt (p :: ps) fuel [] rest (by simp) hfuel

theorem outerGo_succ (f : Nat) (found : Option (List (String × String))) (l : List Char) :
    outerGo (f + 1) found l =
      match l with
      | '}' :: r =>
        match found with
        | some m => .ok (m, r)
        | none => .error "missing field"
      | _ =>
        match parseStrLit l with
        | .error e => .error e
        | .ok (k, r1) =>
          match skipWs r1 with
          | ':' :: r2 =>
            if k = "errors" then
              match found with
              | some _ => .error "duplicate field"
              | none =>
                match parseStrMap f (skipWs r2) with
                | .error e => .error e
                | .ok (m, r3) =>
                  match skipWs r3 with
                  | ',' :: r4 => outerGo f (some m) (skipWs r4)
                  | '}' :: r4 => .ok (m, r4)
                  | _ => .error "expected comma or brace"
            else
              match skipValue f (skipWs r2) with
              | .error e => .error e
              | .ok r3 =>
                match skipWs r3 with
                | ',' :: r4 => outerGo f found (skipWs r4)
                | '}' :: r4 =>
                  match found with
                  | some m => .ok (m, r4)
                  | none => .error "missing field"
                | _ => .error "expected comma or brace"
          | _ => .error "expected colon" := rfl

theorem parseTop_def (l : List Char) :
    parseTop l =
      match skipWs l with
      | '{' :: r =>
        match outerGo (l.length + 1) none (skipWs r) with
        | .error e => .error e
        | .ok (m, rest) =>
          if skipWs rest = [] then .ok ⟨m⟩ else .error "trailing characters"
      | _ => .error "expected object" := rfl

theorem entriesChars_length (pairs : List (String × String)) :
    pairs.length ≤ (entriesChars pairs).length := by
  induction pairs with
  | nil => simp [entriesChars]
  | cons p rest ih =>
    cases rest with
    | nil =>
      rw [show entriesChars [p] = entryChars p from rfl]
      simp [entryChars]
    | cons q l =>
      rw [show entriesChars (p :: q :: l) = entryChars p ++ ',' :: entriesChars (q :: l) from rfl]
      simp [List.length_append, entryChars] at ih ⊢
      omega

theorem outerGo_errors_body (f : Nat) (pairs : List (String × String))
    (hf : pairs.length < f) :
    outerGo (f + 1) none ('"' :: (escList "errors".data ++ '"' ::
        (':' :: (innerObjChars pairs ++ [ '}' ])))) =
      .ok (pairs.foldl (fun m p => mapInsert m p.1 p.2) [], []) := by
  have s1 : ∀ t : List Char, skipWs (':' :: t) = ':' :: t :=
    fun t => skipWs_cons ':' t rfl
  have s5 : ∀ t : List Char, skipWs ('{' :: t) = '{' :: t :=
    fun t => skipWs_cons '{' t rfl
  have hinner : skipWs (innerObjChars pairs ++ [ '}' ]) = innerObjChars pairs ++ [ '}' ] := by
    rw [show innerObjChars pairs ++ [ '}' ] =
      '{' :: (entriesChars pairs ++ '}' :: [ '}' ] ++ []) from by
        simp [innerObjChars, List.append_assoc, List.cons_append]]
    exact s5 _
  have hkey : parseStrLit ('"' :: (escList "errors".data ++ '"' ::
      (':' :: (innerObjChars pairs ++ [ '}' ])))) =
        .ok ("errors", ':' :: (innerObjChars pairs ++ [ '}' ])) :=
    parseStrLit_string "errors" _
  have hmap := parseStrMap_rt pairs f [ '}' ] hf
  simp only [outerGo_succ, hkey, s1, hinner, hmap, eq_self_iff_true, if_true]
  rfl

theorem serializeChars_shape (sv : StructValidator) :
    serializeChars sv = '{' :: ('"' :: (escList "errors".data ++ '"' ::
      (':' :: (innerObjChars sv.errors ++ [ '}' ])))) := by
  rw [show (escList "errors".data : List Char) = "errors".data from by decide]
  simp [serializeChars, List.append_assoc, List.cons_append]

theorem parseTop_serialize (sv : StructValidator) :
    parseTop (serializeChars sv) =
      .ok ⟨sv.errors.foldl (fun m p => mapInsert m p.1 p.2) []⟩ := by
  rw [parseTop_def, serializeChars_shape, skipWs_cons '{' _ rfl]
  show (match outerGo (('{' :: ('"' :: (escList "errors".data ++ '"' ::
      (':' :: (innerObjChars sv.errors ++ [ '}' ]))))).length + 1) none
        (skipWs ('"' :: (escList "errors".data ++ '"' ::
          (':' :: (innerObjChars sv.errors ++ [ '}' ]))))) with
    | .error e => (.error e : Except String StructValidator)
    | .ok (m, rest) =>
      if skipWs rest = [] then .ok ⟨m⟩ else .error "trailing characters") =
    .ok ⟨sv.errors.foldl (fun m p => mapInsert m p.1 p.2) []⟩
  rw [skipWs_cons '"' _ rfl]
  rw [show ('{' :: ('"' :: (escList "errors".data ++ '"' ::
      (':' :: (innerObjChars sv.errors ++ [ '}' ]))))).length + 1 =
    ('"' :: (escList "errors".data ++ '"' ::
      (':' :: (innerObjChars sv.errors ++ [ '}' ])))).length + 1 + 1 from by
        simp]
  rw [outerGo_errors_body _ sv.errors (by
    have := entriesChars_length sv.errors
    simp [List.length_append, innerObjChars]
    omega)]
  simp [skipWs]

theorem lookupMsg_append (a b : List (String × String)) (k : String) :
    lookupMsg (a ++ b) k = orO (lookupMsg a k) (lookupMsg b k) := by
  induction a with
  | nil => simp [lookupMsg, orO]
  | cons p rest ih =>
    by_cases hp : p.1 = k
    · simp [lookupMsg, hp, orO]
    · simp [lookupMsg, hp, ih]

theorem mapInsert_fresh (m : List (String × String)) (k v : String)
    (h : lookupMsg m k = none) : mapInsert m k v = m ++ [(k, v)] := by
  induction m with
  | nil => rfl
  | cons p rest ih =>
    by_cases hp : p.1 = k
    · rw [lookupMsg, if_pos hp] at h
      cases h
    · rw [lookupMsg, if_neg hp] at h
      rw [mapInsert, if_neg hp, ih h, List.cons_append]

theorem foldl_mapInsert_eq (pairs : List (String × String)) :
    ∀ acc, (pairs.map Prod.fst).Nodup →
      (∀ p ∈ pairs, lookupMsg acc p.1 = none) →
      pairs.foldl (fun m p => mapInsert m p.1 p.2) acc = acc ++ pairs := by
  induction pairs with
  | nil => intro acc _ _; simp
  | cons p rest ih =>
    intro acc hnd hfresh
    have hndc : p.1 ∉ rest.map Prod.fst ∧ (rest.map Prod.fst).Nodup := by
      rw [List.map_cons, List.nodup_cons] at hnd
      exact hnd
    have hstep : mapInsert acc p.1 p.2 = acc ++ [(p.1, p.2)] :=
      mapInsert_fresh acc p.1 p.2 (hfresh p (List.mem_cons_self p rest))
    have hfresh' : ∀ q ∈ rest, lookupMsg (acc ++ [(p.1, p.2)]) q.1 = none := by
      intro q hq
      rw [lookupMsg_append, hfresh q (List.mem_cons_of_mem p hq)]
      have hne : p.1 ≠ q.1 := by
        intro he
        exact hndc.1 (he ▸ List.mem_map_of_mem Prod.fst hq)
      simp [lookupMsg, hne, orO]
    have := ih (acc ++ [(p.1, p.2)]) hndc.2 hfresh'
    rw [List.foldl_cons, hstep, this, List.append_assoc]
    rfl

theorem trunc_serialize_id (c : StructValidator)
    (hkeys : ∀ p ∈ c.errors, hasNeedle p.1 = false)
    (hmsgs : ∀ p ∈ c.errors, hasNeedle p.2 = false) :
    truncChars (serializeChars c) = serializeChars c := by
  have hks : ∀ p ∈ c.errors, ¬OccursN p.1.data :=
    fun p hp => (hasNeedle_false_iff p.1).mp (hkeys p hp)
  have hvs : ∀ p ∈ c.errors, ¬OccursN p.2.data :=
    fun p hp => (hasNeedle_false_iff p.2).mp (hmsgs p hp)
  exact truncChars_id_of_noOccur _ (noOccur_serializeChars c hks hvs)

/-- C3 (amended): for every collector `c` none of whose keys or messages
contains the literal substring `" at line"`, parsing the result of
serializing `c` returns success with a collector whose error mapping equals
`c`'s: `from_json_string(c.to_json_string()) == c`. -/
theorem from_json_to_json_round_trip (c : StructValidator)
    (hnd : (c.errors.map Prod.fst).Nodup)
    (hkeys : ∀ p ∈ c.errors, hasNeedle p.1 = false)
    (hmsgs : ∀ p ∈ c.errors, hasNeedle p.2 = false) :
    StructValidator.from_json_string (StructValidator.to_json_string c) = .ok c := by
  have htr : truncChars (StructValidator.to_json_string c).data = serializeChars c := by
    rw [show (StructValidator.to_json_string c).data = serializeChars c from rfl]
    exact trunc_serialize_id c hkeys hmsgs
  rw [show StructValidator.from_json_string (StructValidator.to_json_string c) =
    parseTop (truncChars (StructValidator.to_json_string c).data) from rfl, htr,
    parseTop_serialize, foldl_mapInsert_eq c.errors [] hnd (fun p _ => rfl)]
  rfl

/-- Witness for the amended C3 at the spec's example collector. -/
theorem from_json_to_json_round_trip_witness :
    StructValidator.from_json_string
      (StructValidator.to_json_string
        ((StructValidator.new.insert "name" "field is missing").insert "age"
          "invalid digit found in string")) =
      .ok ((StructValidator.new.insert "name" "field is missing").insert "age"
        "invalid digit found in string") :=
  from_json_to_json_round_trip
    ((StructValidator.new.insert "name" "field is missing").insert "age"
      "invalid digit found in string")
    (by decide) (by decide) (by decide)

/-- C3 counterexample: the round trip fails for a collector whose KEY
contains `" at line"` even though all its messages are clean — the
truncation in `from_json_string` cuts into the serialized key and the parse
fails, so constraining only the messages is not enough. -/
theorem round_trip_fails_for_key_with_needle_cex :
    (∀ p ∈ (StructValidator.new.insert "a at line" "m").errors, hasNeedle p.2 = false) ∧
    isOkE (StructValidator.from_json_string
      (StructValidator.to_json_string (StructValidator.new.insert "a at line" "m"))) = false ∧
    StructValidator.from_json_string
      (StructValidator.to_json_string (StructValidator.new.insert "a at line" "m")) ≠
      .ok (StructValidator.new.insert "a at line" "m") := by
  refine ⟨by decide, by decide, by decide⟩

/-- C2 counterexample: `to_json_string` does not serialize the collector as
the flat object of the claim's example — the derived `Serialize` wraps the
map in an object with the single field "errors". -/
theorem to_json_string_not_flat_object_cex :
    ((StructValidator.new.insert "name" "field is missing").insert "age"
        "invalid digit found in string").to_json_string =
      "\x7b\"errors\":\x7b\"name\":\"field is missing\",\"age\":\"invalid digit found in string\"\x7d\x7d" ∧
    ((StructValidator.new.insert "name" "field is missing").insert "age"
        "invalid digit found in string").to_json_string ≠
      "\x7b\"name\":\"field is missing\",\"age\":\"invalid digit found in string\"\x7d" := by
  refine ⟨by decide, by decide⟩

/-- C2 (amended): `to_json_string` serializes the collector as a JSON object
with the single key "errors" whose value is the JSON object whose keys are
the field identifiers (or the reserved key "unknown") and whose values are
the diagnostic message strings; e.g. the example collector serializes to
`{"errors":{"name":"field is missing","age":"invalid digit found in string"}}`. -/
theorem to_json_string_wraps_errors_object (sv : StructValidator) :
    ((sv.to_json_string).data =
      '{' :: '"' :: "errors".data ++ '"' :: ':' :: innerObjChars sv.errors ++ [ '}' ]) ∧
    ((StructValidator.new.insert "name" "field is missing").insert "age"
        "invalid digit found in string").to_json_string =
      "\x7b\"errors\":\x7b\"name\":\"field is missing\",\"age\":\"invalid digit found in string\"\x7d\x7d" := by
  refine ⟨rfl, by decide⟩
